import Mathlib

/-!
Verification of the Static Inference Runtime core (torch/csrc/jit/runtime/static)
and of DistributedC10d::getGroupSize (torch/lib/c10d/frontend.cpp).

The C++ sources are shallowly embedded: pointers to IR objects become natural
number identities, unordered sets and maps become lists with membership
semantics, and mutation becomes explicit state passing.  Every definition is
translated from the corresponding source function; external collaborators
(the op registry, alias analysis, the individual rewriting passes, the tensor
library) are modelled as abstract data carried by the embedded structures, as
the specification describes them only at interface level.
-/

namespace StaticRuntimeSpec

/-! ## Part 1: DistributedC10d::getGroupSize (frontend.cpp, lines 31-41) -/

/-- Process group handle. The pgid field models the shared_ptr object
identity that the pointer comparisons in frontend.cpp test; the size field
models the value returned by the external call getSize(). -/
structure ProcessGroup where
  pgid : Nat
  size : Int
deriving DecidableEq

/-- State of DistributedC10d that getGroupSize consults: the default process
group and the group-ranks table pg_group_ranks_, keyed by group identity. -/
structure DistributedC10d where
  default_pg : ProcessGroup
  pg_group_ranks : List (Nat × List (Int × Int))
deriving DecidableEq

/-- Lookup in the pg_group_ranks_ table (std::unordered_map::find). -/
def lookupRanks (tbl : List (Nat × List (Int × Int))) (k : Nat) :
    Option (List (Int × Int)) :=
  match tbl with
  | [] => none
  | (k2, v) :: rest => if k2 = k then some v else lookupRanks rest k

/-- DistributedC10d::getGroupSize, frontend.cpp lines 31-41.  The source
reads: if the group is the default group, call default_pg_->getSize() and
discard the result; then look the group up in pg_group_ranks_, failing when
absent, and return the size of the rank map found.  The first component
records the size value the if-statement computed (none when the branch is not
taken); the source never uses it, and the second component is the value the
function actually returns. -/
def getGroupSize (d : DistributedC10d) (group : ProcessGroup) :
    Option Int × Except String Int :=
  let discarded : Option Int :=
    if group.pgid = d.default_pg.pgid then some d.default_pg.size else none
  match lookupRanks d.pg_group_ranks group.pgid with
  | none => (discarded, Except.error "The given group does not exist")
  | some ranks => (discarded, Except.ok (ranks.length : Int))

/-- C10: called with the default process group, getGroupSize computes the
default group size and discards it: the returned value is determined by the
pg_group_ranks_ lookup alone (unchanged under any change of the computed
size), it is the rank-table size when the default group is registered, and
the call fails with the given-group-does-not-exist error when it is not. -/
theorem getGroupSize_default_discards_size (d : DistributedC10d) :
    (getGroupSize d d.default_pg).1 = some d.default_pg.size ∧
    (∀ sz : Int,
      (getGroupSize
        { d with default_pg := { d.default_pg with size := sz } }
        { d.default_pg with size := sz }).2 = (getGroupSize d d.default_pg).2) ∧
    (lookupRanks d.pg_group_ranks d.default_pg.pgid = none →
      (getGroupSize d d.default_pg).2 =
        Except.error "The given group does not exist") ∧
    (∀ ranks, lookupRanks d.pg_group_ranks d.default_pg.pgid = some ranks →
      (getGroupSize d d.default_pg).2 = Except.ok (ranks.length : Int)) := by
  refine ⟨?_, ?_, ?_, ?_⟩
  · simp only [getGroupSize]
    cases lookupRanks d.pg_group_ranks d.default_pg.pgid <;> rfl
  · intro sz
    simp only [getGroupSize]
    cases lookupRanks d.pg_group_ranks d.default_pg.pgid <;> rfl
  · intro h
    simp [getGroupSize, h]
  · intro ranks h
    simp [getGroupSize, h]

/-- Witness for C10 at a concrete state: a default group of size 4 absent
from the rank table makes getGroupSize fail. -/
theorem getGroupSize_default_discards_size_witness :
    lookupRanks (DistributedC10d.mk (ProcessGroup.mk 0 4) []).pg_group_ranks
        (DistributedC10d.mk (ProcessGroup.mk 0 4) []).default_pg.pgid = none ∧
    (getGroupSize (DistributedC10d.mk (ProcessGroup.mk 0 4) [])
        (DistributedC10d.mk (ProcessGroup.mk 0 4) []).default_pg).2 =
      Except.error "The given group does not exist" :=
  ⟨rfl,
   (getGroupSize_default_discards_size
      (DistributedC10d.mk (ProcessGroup.mk 0 4) [])).2.2.1 rfl⟩

/-! ## Part 2: the graph optimiser pass sequence (impl.cpp 20-35, 203-230;
passes.cpp 166-180)

The individual rewriting passes (Inline, ConstantPropagation, Canonicalize,
RemoveTensorMutation, EliminateDeadCode, the subgraph-rewriter fusions) live
outside this repository: they are external collaborators taking the graph by
mutable reference.  A pass application is therefore modelled by recording the
pass on the graph object it mutates, which captures exactly the information
the sequencing claim is about. -/

/-- Names of the passes OptimizeGraph can apply. -/
inductive Pass where
  | inlinePass
  | constantPropagation
  | canonicalize
  | removeTensorMutation
  | eliminateDeadCode
  | concatAddMulReplaceNaNClip
  | castedBatchOneHotLengths
  | concatBatchMatMulBatchGather
  | clipRangesGatherRangesLengthsToOffsets
  | clipRangesGatherSigridHash
  | clipRangesGatherRangesSigridHash
  | clipRangesGather
deriving DecidableEq

/-- Graph object as the optimiser sees it: the record of the passes that have
been applied, in order, to this object. -/
structure TGraph where
  trace : List Pass
deriving DecidableEq

/-- Application of one external pass to the graph object, in place. -/
def applyPass (p : Pass) (g : TGraph) : TGraph :=
  { g with trace := g.trace ++ [p] }

/-- PrepareGraphForStaticRuntime, impl.cpp lines 20-28. -/
def PrepareGraphForStaticRuntime (g : TGraph) : TGraph :=
  applyPass .eliminateDeadCode (applyPass .constantPropagation
    (applyPass .removeTensorMutation (applyPass .constantPropagation
      (applyPass .canonicalize (applyPass .constantPropagation
        (applyPass .inlinePass g))))))

/-- FuseInferenceOpsForSparseNN, passes.cpp lines 166-180.  The body is
guarded by the compile-time flag FBCODE_CAFFE2, modelled by the fbcode
argument; the seven fusions run in source order. -/
def FuseInferenceOpsForSparseNN (fbcode : Bool) (g : TGraph) : TGraph :=
  if fbcode then
    applyPass .clipRangesGather (applyPass .clipRangesGatherRangesSigridHash
      (applyPass .clipRangesGatherSigridHash
        (applyPass .clipRangesGatherRangesLengthsToOffsets
          (applyPass .concatBatchMatMulBatchGather
            (applyPass .castedBatchOneHotLengths
              (applyPass .concatAddMulReplaceNaNClip g))))))
  else g

/-- OptimizeGraph, impl.cpp lines 31-35. -/
def OptimizeGraph (fbcode : Bool) (g : TGraph) : TGraph :=
  applyPass .constantPropagation
    (FuseInferenceOpsForSparseNN fbcode (PrepareGraphForStaticRuntime g))

/-- Placeholder for the immutable artefact InferenceModule; only the graph
matters for the optimiser claims. -/
structure InferenceModuleT where
  graph : TGraph
deriving DecidableEq

/-- InferenceModule::init (impl.cpp 203-207) composed with the graph-based
constructor (impl.cpp 225-230).  The constructor moves the shared pointer it
received into the module, so the module and the caller share one graph
object, and init runs OptimizeGraph on that object in place.  The second
component is the state of the graph object the caller still holds after
construction.  CheckGraphEligibility and RemoveSelfFromGraphInput apply no
rewriting passes and are modelled separately. -/
def InferenceModule_fromGraph (fbcode : Bool) (g : TGraph) :
    InferenceModuleT × TGraph :=
  let g2 := OptimizeGraph fbcode g
  ({ graph := g2 }, g2)

/-- C6 counterexample: constructing an InferenceModule from a graph does not
leave the caller's graph unchanged — the passes run on the caller's graph
object itself (impl.cpp line 228 stores the moved shared pointer; init
mutates it), refuting the copy part of the claim at the empty-trace graph. -/
theorem OptimizeGraph_mutates_caller_graph :
    (InferenceModule_fromGraph false (TGraph.mk [])).2 ≠ TGraph.mk [] := by
  decide

/-- C6 amended: OptimizeGraph applies exactly Inline, ConstantPropagation,
Canonicalize, ConstantPropagation, RemoveTensorMutation,
ConstantPropagation, EliminateDeadCode, then the seven domain fusions when
the FBCODE_CAFFE2 flag is set, then a final ConstantPropagation, in that
order with no other pass interleaved; but the graph-based InferenceModule
constructor runs this sequence on the caller's graph object in place (only
the module-based constructor first copies the module). -/
theorem OptimizeGraph_pass_sequence (fbcode : Bool) (g : TGraph) :
    (OptimizeGraph fbcode g).trace =
      g.trace ++
        ([.inlinePass, .constantPropagation, .canonicalize,
          .constantPropagation, .removeTensorMutation, .constantPropagation,
          .eliminateDeadCode] ++
         (if fbcode then
            [.concatAddMulReplaceNaNClip, .castedBatchOneHotLengths,
             .concatBatchMatMulBatchGather,
             .clipRangesGatherRangesLengthsToOffsets,
             .clipRangesGatherSigridHash, .clipRangesGatherRangesSigridHash,
             .clipRangesGather]
          else []) ++ [.constantPropagation]) ∧
    (InferenceModule_fromGraph fbcode g).2 = OptimizeGraph fbcode g := by
  constructor
  · cases fbcode <;>
      simp [OptimizeGraph, FuseInferenceOpsForSparseNN,
        PrepareGraphForStaticRuntime, applyPass]
  · rfl

/-! ## Part 3: the graph IR model

Values are SSA identities (naturals); nodes carry a kind string (the interned
Symbol), input values and output values; a graph carries its input and output
value lists, its node list in topological order, and the static type of every
value.  Unordered sets and maps of the C++ become lists with membership
semantics. -/

/-- SSA value identity (Value* in the IR). -/
abbrev Value := Nat

/-- Static types as the eligibility check and the planner observe them:
cast to TensorType succeeds exactly on tensor, cast to NoneType exactly
on noneTy. -/
inductive Ty where
  | tensor
  | noneTy
  | tuple (elems : List Ty)
  | listTy (elem : Ty)
  | other

/-- Test modelling type->cast<TensorType>() != nullptr. -/
def Ty.isTensor : Ty → Bool
  | .tensor => true
  | _ => false

/-- Test modelling type->cast<NoneType>() != nullptr. -/
def Ty.isNone : Ty → Bool
  | .noneTy => true
  | _ => false

/-- IR node: kind symbol, ordered inputs, ordered outputs. -/
structure Node where
  kind : String
  inputs : List Value
  outputs : List Value
deriving DecidableEq

/-- IR graph: inputs, outputs, nodes in topological order, and the static
type of each value. -/
structure Graph where
  inputs : List Value
  outputs : List Value
  nodes : List Node
  typeOf : Value → Ty

/-- Node producing a value (Value::node()), none when the value is a graph
input (produced by the Param node). -/
def producerNode (g : Graph) (v : Value) : Option Node :=
  g.nodes.find? (fun n => n.outputs.contains v)

/-- Kind of the producing node; graph inputs are produced by the Param
node. -/
def producerKind (g : Graph) (v : Value) : String :=
  match producerNode g v with
  | some n => n.kind
  | none => "prim::Param"

/-- Inputs of the producing node (empty for the Param node). -/
def producerInputs (g : Graph) (v : Value) : List Value :=
  match producerNode g v with
  | some n => n.inputs
  | none => []

/-! ## Part 4: CheckGraphEligibility (impl.cpp lines 37-67) -/

/-- Per-output check of the second loop of CheckGraphEligibility: outputs
produced by a TupleConstruct/ListConstruct node must have every input of
that node of tensor type; any other output must itself be of tensor or none
type. -/
def checkOutputs (g : Graph) : List Value → Except String Unit
  | [] => Except.ok ()
  | output :: rest =>
    if producerKind g output = "prim::TupleConstruct" ∨
        producerKind g output = "prim::ListConstruct" then
      if (producerInputs g output).all (fun i => (g.typeOf i).isTensor) then
        checkOutputs g rest
      else
        Except.error
          "Static Runtime expects output type as List or Tuple of Tensor"
    else
      if (g.typeOf output).isTensor || (g.typeOf output).isNone then
        checkOutputs g rest
      else
        Except.error "Static Runtime expects output type as None or Tensor"

/-- CheckGraphEligibility, impl.cpp lines 37-67: reject graphs with a
prim::GetAttr node, then check every graph output. -/
def CheckGraphEligibility (g : Graph) : Except String Unit :=
  if g.nodes.any (fun n => n.kind = "prim::GetAttr") then
    Except.error "Cannot accelerate unfrozen graphs"
  else checkOutputs g g.outputs

/-- Condition under which one output passes the check (the branch structure
of the loop body of CheckGraphEligibility). -/
def outputCheckOk (g : Graph) (output : Value) : Bool :=
  if producerKind g output = "prim::TupleConstruct" ∨
      producerKind g output = "prim::ListConstruct" then
    (producerInputs g output).all (fun i => (g.typeOf i).isTensor)
  else
    (g.typeOf output).isTensor || (g.typeOf output).isNone

/-- Output-type predicate as claim C5 words it: tensor, none, or a
tuple/list whose every element is of tensor type. -/
def specOutputTypeOk : Ty → Bool
  | .tensor => true
  | .noneTy => true
  | .tuple es => es.all Ty.isTensor
  | .listTy e => e.isTensor
  | .other => false

theorem checkOutputs_cons (g : Graph) (output : Value) (rest : List Value) :
    checkOutputs g (output :: rest) =
      if outputCheckOk g output = true then checkOutputs g rest
      else if producerKind g output = "prim::TupleConstruct" ∨
          producerKind g output = "prim::ListConstruct" then
        Except.error
          "Static Runtime expects output type as List or Tuple of Tensor"
      else Except.error "Static Runtime expects output type as None or Tensor"
    := by
  by_cases hk : producerKind g output = "prim::TupleConstruct" ∨
      producerKind g output = "prim::ListConstruct"
  · by_cases hi : ((producerInputs g output).all
        (fun i => (g.typeOf i).isTensor)) = true
    · simp [checkOutputs, outputCheckOk, hk, hi]
    · simp [checkOutputs, outputCheckOk, hk, hi]
  · by_cases ht : ((g.typeOf output).isTensor || (g.typeOf output).isNone)
        = true
    · simp [checkOutputs, outputCheckOk, hk, ht]
    · simp [checkOutputs, outputCheckOk, hk, ht]

theorem checkOutputs_ok_iff (g : Graph) (l : List Value) :
    checkOutputs g l = Except.ok () ↔ ∀ v ∈ l, outputCheckOk g v = true := by
  induction l with
  | nil => simp [checkOutputs]
  | cons output rest ih =>
    rw [checkOutputs_cons]
    by_cases hc : outputCheckOk g output = true
    · rw [if_pos hc]
      simp [hc, ih]
    · rw [if_neg hc]
      constructor
      · intro h2
        exfalso
        split at h2 <;> simp at h2
      · intro h2
        exact absurd (h2 output (by simp)) hc

/-- Graph exhibiting the gap in claim C5: its single output is a graph
input of type Tuple(Tensor) — a tuple every element of which is a tensor —
yet it is not produced by a TupleConstruct node. -/
def gElig : Graph :=
  { inputs := [0], outputs := [0], nodes := [],
    typeOf := fun v => if v = 0 then Ty.tuple [Ty.tensor] else Ty.other }

/-- C5 counterexample: gElig has no prim::GetAttr node and every graph
output is a tuple whose every element is of tensor type, so by the claim
the check must pass; the code fails it, because the output is not produced
by a TupleConstruct/ListConstruct node and its type is neither Tensor nor
None. -/
theorem CheckGraphEligibility_claim_counterexample :
    (∀ n ∈ gElig.nodes, ¬ n.kind = "prim::GetAttr") ∧
    (∀ v ∈ gElig.outputs, specOutputTypeOk (gElig.typeOf v) = true) ∧
    CheckGraphEligibility gElig =
      Except.error "Static Runtime expects output type as None or Tensor" := by
  refine ⟨by decide, by decide, by rfl⟩

/-- C5 amended: eligibility checking fails iff some node has kind
prim::GetAttr, or some graph output produced by a TupleConstruct or
ListConstruct node has an input of that node whose type is not Tensor, or
some graph output not so produced has a type that is neither Tensor nor
None (the per-output condition outputCheckOk). -/
theorem CheckGraphEligibility_fails_iff (g : Graph) :
    CheckGraphEligibility g ≠ Except.ok () ↔
      ((∃ n ∈ g.nodes, n.kind = "prim::GetAttr") ∨
       ∃ v ∈ g.outputs, outputCheckOk g v = false) := by
  by_cases h : g.nodes.any (fun n => n.kind = "prim::GetAttr")
  · simp only [CheckGraphEligibility, h, if_true]
    constructor
    · intro _
      left
      simpa using h
    · intro _
      simp
  · simp only [CheckGraphEligibility, h, if_false]
    rw [List.any_eq_true] at h
    push_neg at h
    constructor
    · intro hne
      right
      have hno := (not_iff_not.mpr (checkOutputs_ok_iff g g.outputs)).mp hne
      push_neg at hno
      rcases hno with ⟨v, hv, hbad⟩
      exact ⟨v, hv, by simpa using hbad⟩
    · rintro (⟨n, hn, hk⟩ | ⟨v, hv, hbad⟩)
      · exact absurd (by simpa using hk) (by simpa using h n hn)
      · intro hok
        have := (checkOutputs_ok_iff g g.outputs).mp hok v hv
        simp [this] at hbad

/-! ## Part 5: MemoryPlanner managed-value selection (impl.cpp lines 572-638)

The set managed_values of the MemoryPlanner constructor.  std::unordered_set
insertion and erasure are modelled by duplicate-free list insertion and by
removal of the value from the list. -/

/-- Insertion into a set represented as a list (std::unordered_set::insert). -/
def insertV (v : Value) (l : List Value) : List Value :=
  if l.contains v then l else l ++ [v]

/-- Erasure from a set represented as a list (std::unordered_set::erase). -/
def eraseV (l : List Value) (v : Value) : List Value :=
  l.filter (fun w => w ≠ v)

theorem mem_insertV (x v : Value) (l : List Value) :
    x ∈ insertV v l ↔ x ∈ l ∨ x = v := by
  unfold insertV
  by_cases h : l.contains v
  · rw [if_pos h]
    constructor
    · exact Or.inl
    · rintro (hx | rfl)
      · exact hx
      · simpa using h
  · rw [if_neg h]
    simp

theorem mem_eraseV (x v : Value) (l : List Value) :
    x ∈ eraseV l v ↔ x ∈ l ∧ x ≠ v := by
  simp [eraseV]

theorem mem_foldl_insertV (x : Value) (l : List Value) (acc : List Value) :
    x ∈ l.foldl (fun a v => insertV v a) acc ↔ x ∈ acc ∨ x ∈ l := by
  induction l generalizing acc with
  | nil => simp
  | cons v rest ih =>
    simp only [List.foldl_cons, ih, mem_insertV]
    constructor
    · rintro ((hx | rfl) | hx)
      · exact Or.inl hx
      · simp
      · simp [hx]
    · rintro (hx | hx)
      · exact Or.inl (Or.inl hx)
      · rcases List.mem_cons.mp hx with rfl | hx
        · exact Or.inl (Or.inr rfl)
        · exact Or.inr hx

theorem mem_foldl_eraseV (x : Value) (l : List Value) (acc : List Value) :
    x ∈ l.foldl eraseV acc ↔ x ∈ acc ∧ x ∉ l := by
  induction l generalizing acc with
  | nil => simp
  | cons v rest ih =>
    simp only [List.foldl_cons, ih, mem_eraseV, List.mem_cons]
    constructor
    · rintro ⟨⟨hx, hne⟩, hrest⟩
      exact ⟨hx, by rintro (rfl | h) <;> [exact hne rfl; exact hrest h]⟩
    · rintro ⟨hx, hni⟩
      exact ⟨⟨hx, fun h => hni (Or.inl h)⟩, fun h => hni (Or.inr h)⟩

/-- External op-registry classification (C1 of the specification), keyed on
the node kind; canRunOutOfPlace and isViewOp are consumed by the planner. -/
structure OpRegistry where
  canRunOutOfPlace : String → Bool
  canRunNatively : String → Bool
  isViewOp : String → Bool

/-- ProcessedNode as the planner observes it.  The hasOutVariant field
models pnode.has_out_variant(): the ProcessedNode constructor (impl.cpp
744-773) records the out-variant function exactly when out variants are
enabled and the registry offers one for the node. -/
structure PNode where
  node : Node
  hasOutVariant : Bool
deriving DecidableEq

/-- ProcessedNode construction (impl.cpp 744-773), restricted to the data
the planner consumes. -/
def mkPNode (reg : OpRegistry) (enableOutVariant : Bool) (n : Node) : PNode :=
  { node := n, hasOutVariant := enableOutVariant && reg.canRunOutOfPlace n.kind }

/-- The runtime's ProcessedNode list (impl.cpp 282-295): every non-Constant
node of the graph, in order. -/
def runtimePNodes (reg : OpRegistry) (enableOutVariant : Bool) (g : Graph) :
    List PNode :=
  (g.nodes.filter (fun n => n.kind ≠ "prim::Constant")).map
    (mkPNode reg enableOutVariant)

/-- Per-node management decision of the planner constructor (impl.cpp
585-596): the node must advertise an out-variant, and a view op none of
whose inputs is a graph input. -/
def shouldManage (reg : OpRegistry) (g : Graph) (pn : PNode) : Bool :=
  pn.hasOutVariant &&
    !(reg.isViewOp pn.node.kind &&
      pn.node.inputs.any (fun i => g.inputs.contains i))

/-- First phase of managed-value collection (impl.cpp 584-612): outputs of
should-manage nodes whose static type is tensor. -/
def managedPhase1 (reg : OpRegistry) (g : Graph) (pnodes : List PNode) :
    List Value :=
  pnodes.foldl
    (fun acc pn =>
      if shouldManage reg g pn then
        (pn.node.outputs.filter (fun out => (g.typeOf out).isTensor)).foldl
          (fun a v => insertV v a) acc
      else acc) []

/-- Values erased in the second phase (impl.cpp 616-630): the inputs of
every TupleConstruct/ListConstruct node that produces a graph output. -/
def outputAggregateInputs (g : Graph) : List Value :=
  g.outputs.flatMap (fun out =>
    if producerKind g out = "prim::TupleConstruct" ∨
        producerKind g out = "prim::ListConstruct" then
      producerInputs g out
    else [])

/-- The managed_values set at the end of the selection (impl.cpp 584-638):
phase one, minus inputs of output tuples/lists, minus graph outputs. -/
def managedValues (reg : OpRegistry) (g : Graph) (pnodes : List PNode) :
    List Value :=
  g.outputs.foldl eraseV
    ((outputAggregateInputs g).foldl eraseV (managedPhase1 reg g pnodes))

theorem mem_managedPhase1 (reg : OpRegistry) (g : Graph)
    (pnodes : List PNode) (v : Value) :
    v ∈ managedPhase1 reg g pnodes ↔
      ∃ pn ∈ pnodes, shouldManage reg g pn = true ∧ v ∈ pn.node.outputs ∧
        (g.typeOf v).isTensor = true := by
  unfold managedPhase1
  suffices h : ∀ acc : List Value,
      v ∈ pnodes.foldl
        (fun acc pn =>
          if shouldManage reg g pn then
            (pn.node.outputs.filter (fun out => (g.typeOf out).isTensor)).foldl
              (fun a w => insertV w a) acc
          else acc) acc ↔
      (v ∈ acc ∨ ∃ pn ∈ pnodes, shouldManage reg g pn = true ∧
        v ∈ pn.node.outputs ∧ (g.typeOf v).isTensor = true) by
    rw [h []]
    simp
  intro acc
  induction pnodes generalizing acc with
  | nil => simp
  | cons pn rest ih =>
    simp only [List.foldl_cons]
    by_cases hm : shouldManage reg g pn = true
    · rw [if_pos hm, ih, mem_foldl_insertV]
      simp only [List.mem_filter]
      constructor
      · rintro ((hx | ⟨hv, ht⟩) | ⟨pn2, h2, h3, h4, h5⟩)
        · exact Or.inl hx
        · exact Or.inr ⟨pn, by simp, hm, hv, ht⟩
        · exact Or.inr ⟨pn2, by simp [h2], h3, h4, h5⟩
      · rintro (hx | ⟨pn2, h2, h3, h4, h5⟩)
        · exact Or.inl (Or.inl hx)
        · rcases List.mem_cons.mp h2 with rfl | h2
          · exact Or.inl (Or.inr ⟨h4, h5⟩)
          · exact Or.inr ⟨pn2, h2, h3, h4, h5⟩
    · rw [if_neg hm, ih]
      constructor
      · rintro (hx | ⟨pn2, h2, h3, h4, h5⟩)
        · exact Or.inl hx
        · exact Or.inr ⟨pn2, by simp [h2], h3, h4, h5⟩
      · rintro (hx | ⟨pn2, h2, h3, h4, h5⟩)
        · exact Or.inl hx
        · rcases List.mem_cons.mp h2 with rfl | h2
          · exact absurd h3 hm
          · exact Or.inr ⟨pn2, h2, h3, h4, h5⟩

/-- C1: a value is in managed_values iff some processed node producing it
has an out-variant recorded and is not a view op with a graph input among
its inputs and the value's static type is tensor, and the value is neither
a graph output nor an input of a TupleConstruct/ListConstruct node
producing a graph output.  Stated for the planner constructed over any
graph and processed-node list. -/
theorem managedValues_iff (reg : OpRegistry) (g : Graph)
    (enableOutVariant : Bool) (v : Value) :
    v ∈ managedValues reg g (runtimePNodes reg enableOutVariant g) ↔
      ((∃ pn ∈ runtimePNodes reg enableOutVariant g,
          v ∈ pn.node.outputs ∧ pn.hasOutVariant = true ∧
          ¬(reg.isViewOp pn.node.kind = true ∧
            ∃ i ∈ pn.node.inputs, i ∈ g.inputs)) ∧
        (g.typeOf v).isTensor = true) ∧
      v ∉ g.outputs ∧
      ¬(∃ out ∈ g.outputs,
          (producerKind g out = "prim::TupleConstruct" ∨
            producerKind g out = "prim::ListConstruct") ∧
          v ∈ producerInputs g out) := by
  unfold managedValues
  rw [mem_foldl_eraseV, mem_foldl_eraseV, mem_managedPhase1]
  have hagg : v ∉ outputAggregateInputs g ↔
      ¬(∃ out ∈ g.outputs,
          (producerKind g out = "prim::TupleConstruct" ∨
            producerKind g out = "prim::ListConstruct") ∧
          v ∈ producerInputs g out) := by
    unfold outputAggregateInputs
    rw [not_iff_not]
    simp only [List.mem_flatMap]
    constructor
    · rintro ⟨out, hout, hv⟩
      by_cases hk : producerKind g out = "prim::TupleConstruct" ∨
          producerKind g out = "prim::ListConstruct"
      · rw [if_pos hk] at hv
        exact ⟨out, hout, hk, hv⟩
      · rw [if_neg hk] at hv
        simp at hv
    · rintro ⟨out, hout, hk, hv⟩
      exact ⟨out, hout, by rw [if_pos hk]; exact hv⟩
  have hsm : ∀ pn : PNode, shouldManage reg g pn = true ↔
      pn.hasOutVariant = true ∧
      ¬(reg.isViewOp pn.node.kind = true ∧
        ∃ i ∈ pn.node.inputs, i ∈ g.inputs) := by
    intro pn
    cases hb : reg.isViewOp pn.node.kind <;>
      simp [shouldManage, List.any_eq_true, hb]
  rw [hagg]
  constructor
  · rintro ⟨⟨⟨pn, hpn, hm, hv, ht⟩, hnagg⟩, hnout⟩
    rcases (hsm pn).mp hm with ⟨hov, hnview⟩
    exact ⟨⟨⟨pn, hpn, hv, hov, hnview⟩, ht⟩, hnout, hnagg⟩
  · rintro ⟨⟨⟨pn, hpn, hv, hov, hnview⟩, ht⟩, hnout, hnagg⟩
    exact ⟨⟨⟨pn, hpn, (hsm pn).mpr ⟨hov, hnview⟩, hv, ht⟩, hnagg⟩, hnout⟩

/-! ## Part 6: MemoryPlanner storage state, allocate and deallocate
(impl.cpp lines 640-742)

A StorageImpl is a record with its pointer identity (sid), its current
nbytes, and its data pointer modelled as the offset it was last assigned
(none after reset).  The external tensor-library operations
set_data_ptr_noswap, set_nbytes and reset act on these fields as the
interface contract of the specification describes. -/

/-- StorageImpl as the planner sees it. -/
structure Storage where
  sid : Nat
  nbytes : Nat
  data : Option Nat
deriving DecidableEq

/-- StorageImpl::reset(): drop the data pointer, keep the object. -/
def Storage.reset (s : Storage) : Storage :=
  { s with data := none }

/-- Alignment constant c10::gAlignment (64 bytes on CPU). -/
def gAlignment : Nat := 64

/-- MemoryPlanner::compute_aligned_tensor_size, impl.cpp 685-688: round
nbytes up to a multiple of gAlignment.  The source computes this as
(nbytes + gAlignment - 1) masked by the complement of (gAlignment - 1)
over size_t, which for the power-of-two gAlignment and sizes below the
size_t wrap equals rounding up to the next multiple. -/
def compute_aligned_tensor_size (nbytes : Nat) : Nat :=
  (nbytes + gAlignment - 1) / gAlignment * gAlignment

/-- State of the MemoryPlanner: managed_storage_ (per-group recorded size
and storage list), managed_bytes_, the unmanaged IValue slots (true when
the slot holds a value), and buffer_ (size of the held allocation). -/
structure MemoryPlannerState where
  managed_storage : List (Nat × List Storage)
  managed_bytes : Nat
  unmanaged : List Bool
  buffer : Option Nat
deriving DecidableEq

/-- The group walk of MemoryPlanner::allocate (impl.cpp 701-718): thread
the offset through the groups, skipping zero-size groups, and point every
storage of a group at the group's offset with the group's recorded size.
Returns the rewritten groups and the offset reached at the end (the value
the final DCHECK_EQ compares against managed_bytes_). -/
def allocGroups : List (Nat × List Storage) → Nat →
    List (Nat × List Storage) × Nat
  | [], offset => ([], offset)
  | gr :: rest, offset =>
    if gr.1 = 0 then
      let r := allocGroups rest offset
      (gr :: r.1, r.2)
    else
      let gr2 : Nat × List Storage :=
        (gr.1, gr.2.map (fun st => { st with data := some offset,
                                             nbytes := gr.1 }))
      let r := allocGroups rest (offset + gr.1)
      (gr2 :: r.1, r.2)

/-- MemoryPlanner::allocate, impl.cpp 695-720: a no-op when managed_bytes_
is zero; otherwise allocate the buffer and walk the groups. -/
def MemoryPlanner_allocate (s : MemoryPlannerState) : MemoryPlannerState :=
  if s.managed_bytes = 0 then s
  else
    { s with buffer := some s.managed_bytes,
             managed_storage := (allocGroups s.managed_storage 0).1 }

/-- Offset reached at the end of the allocate walk. -/
def allocateFinalOffset (s : MemoryPlannerState) : Nat :=
  (allocGroups s.managed_storage 0).2

/-- MemoryPlanner::deallocate, impl.cpp 722-742: per group, record the
maximum aligned current size and reset every storage; managed_bytes_
becomes the sum of the recorded sizes; unmanaged slots are cleared and the
buffer released. -/
def MemoryPlanner_deallocate (s : MemoryPlannerState) : MemoryPlannerState :=
  let groups2 := s.managed_storage.map (fun gr =>
    (gr.2.foldl (fun m st => max m (compute_aligned_tensor_size st.nbytes)) 0,
     gr.2.map Storage.reset))
  { managed_storage := groups2,
    managed_bytes := (groups2.map Prod.fst).sum,
    unmanaged := s.unmanaged.map (fun _ => false),
    buffer := none }

theorem allocGroups_offset (l : List (Nat × List Storage)) (offset : Nat) :
    (allocGroups l offset).2 = offset + (l.map Prod.fst).sum := by
  induction l generalizing offset with
  | nil => simp [allocGroups]
  | cons gr rest ih =>
    by_cases h : gr.1 = 0
    · simp [allocGroups, h, ih]
    · simp only [allocGroups, if_neg h, ih, List.map_cons, List.sum_cons]
      omega

/-- C2: on any planner state produced by deallocate, allocate is a no-op
when managed_bytes is zero, and otherwise the offset reached at the end of
the group walk equals the sum of the per-group recorded sizes, and both
equal managed_bytes, so the final internal consistency check
DCHECK_EQ(offset, managed_bytes_) cannot fail. -/
theorem allocate_after_deallocate (s0 : MemoryPlannerState) :
    ((MemoryPlanner_deallocate s0).managed_bytes = 0 →
      MemoryPlanner_allocate (MemoryPlanner_deallocate s0) =
        MemoryPlanner_deallocate s0) ∧
    allocateFinalOffset (MemoryPlanner_deallocate s0) =
      ((MemoryPlanner_deallocate s0).managed_storage.map Prod.fst).sum ∧
    ((MemoryPlanner_deallocate s0).managed_storage.map Prod.fst).sum =
      (MemoryPlanner_deallocate s0).managed_bytes := by
  refine ⟨?_, ?_, ?_⟩
  · intro h
    simp [MemoryPlanner_allocate, h]
  · rw [allocateFinalOffset, allocGroups_offset]
    omega
  · rfl

/-- Witness for C2 at a planner state with one empty group: after
deallocate, managed_bytes is zero and allocate leaves the state
unchanged. -/
theorem allocate_after_deallocate_witness :
    (MemoryPlanner_deallocate
        (MemoryPlannerState.mk [(7, [])] 7 [true] (some 7))).managed_bytes
      = 0 ∧
    MemoryPlanner_allocate (MemoryPlanner_deallocate
        (MemoryPlannerState.mk [(7, [])] 7 [true] (some 7))) =
      MemoryPlanner_deallocate
        (MemoryPlannerState.mk [(7, [])] 7 [true] (some 7)) :=
  ⟨by decide,
   (allocate_after_deallocate
      (MemoryPlannerState.mk [(7, [])] 7 [true] (some 7))).1 (by decide)⟩

/-! ## Part 7: the storage-grouping snapshot of the MemoryPlanner
constructor (impl.cpp lines 645-681) and claim C9 -/

/-- State threaded through the snapshot loop: managed_storage_impls (the
storage identities seen), the shared map (value to group index), and
managed_storage_ (the groups). -/
structure GroupState where
  seen : List Nat
  shared : List (Value × Nat)
  groups : List (Nat × List Storage)

/-- Lookup in the shared map (std::unordered_map::count / at). -/
def lookupIdx : List (Value × Nat) → Value → Option Nat
  | [], _ => none
  | (k, i) :: rest, v => if k = v then some i else lookupIdx rest v

/-- Overwrite in the shared map (shared[v] = idx). -/
def setIdx : List (Value × Nat) → Value → Nat → List (Value × Nat)
  | [], v, i => [(v, i)]
  | (k, j) :: rest, v, i =>
    if k = v then (v, i) :: rest else (k, j) :: setIdx rest v i

/-- In-place modification of the group at an index
(managed_storage_[idx]). -/
def modifyGroup (f : Nat × List Storage → Nat × List Storage) :
    Nat → List (Nat × List Storage) → List (Nat × List Storage)
  | _, [] => []
  | 0, gr :: rest => f gr :: rest
  | i + 1, gr :: rest => gr :: modifyGroup f i rest

/-- One iteration of the snapshot loop (impl.cpp 652-680) on the pair of a
managed value and the storage its IValue currently holds: a storage
identity already seen is skipped; otherwise the value joins the group the
shared map assigns it, or founds a new group, registering its should_share
companions for that group. -/
def snapshotStep (should_share : Value → List Value) (s : GroupState)
    (p : Value × Storage) : GroupState :=
  if s.seen.contains p.2.sid then s
  else
    let seen2 := s.seen ++ [p.2.sid]
    match lookupIdx s.shared p.1 with
    | some idx =>
      { s with seen := seen2,
               groups := modifyGroup (fun gr => (gr.1, gr.2 ++ [p.2])) idx
                 s.groups }
    | none =>
      let groups2 := s.groups ++ [(0, [p.2])]
      { seen := seen2,
        shared := (should_share p.1).foldl
          (fun acc w => setIdx acc w (groups2.length - 1)) s.shared,
        groups := groups2 }

/-- The (value, storage) pairs the snapshot loop visits: every output of
every processed node that is in managed_values, paired with the storage of
its IValue (storageOf models the runtime memory state at snapshot
time). -/
def managedSnapshotPairs (pnodes : List PNode) (storageOf : Value → Storage)
    (managed : List Value) : List (Value × Storage) :=
  pnodes.flatMap (fun pn =>
    (pn.node.outputs.filter (fun v => managed.contains v)).map
      (fun v => (v, storageOf v)))

/-- managed_storage_ as built by the MemoryPlanner constructor. -/
def MemoryPlanner_managed_storage (reg : OpRegistry) (g : Graph)
    (pnodes : List PNode) (storageOf : Value → Storage)
    (should_share : Value → List Value) : List (Nat × List Storage) :=
  ((managedSnapshotPairs pnodes storageOf (managedValues reg g pnodes)).foldl
    (snapshotStep should_share) (GroupState.mk [] [] [])).groups

/-- Storage identities across all groups, in order. -/
def allSids (groups : List (Nat × List Storage)) : List Nat :=
  groups.flatMap (fun gr => gr.2.map Storage.sid)

theorem modifyGroup_of_le (f : Nat × List Storage → Nat × List Storage)
    (idx : Nat) (groups : List (Nat × List Storage))
    (h : groups.length ≤ idx) : modifyGroup f idx groups = groups := by
  induction groups generalizing idx with
  | nil => cases idx <;> rfl
  | cons gr rest ih =>
    cases idx with
    | zero => simp at h
    | succ i =>
      simp only [modifyGroup]
      rw [ih i (by simpa using h)]

theorem allSids_modifyGroup_perm (st : Storage) (idx : Nat)
    (groups : List (Nat × List Storage)) (h : idx < groups.length) :
    (allSids (modifyGroup (fun gr => (gr.1, gr.2 ++ [st])) idx
      groups)).Perm (st.sid :: allSids groups) := by
  induction groups generalizing idx with
  | nil => simp at h
  | cons gr rest ih =>
    cases idx with
    | zero =>
      simp only [modifyGroup, allSids, List.flatMap_cons, List.map_append,
        List.map_cons, List.map_nil]
      rw [List.append_assoc]
      exact List.perm_middle
    | succ i =>
      simp only [modifyGroup, allSids, List.flatMap_cons]
      have h1 := List.Perm.append_left (gr.2.map Storage.sid)
        (ih i (by simpa using h))
      exact h1.trans List.perm_middle

theorem allSids_append_single (groups : List (Nat × List Storage))
    (gr : Nat × List Storage) :
    allSids (groups ++ [gr]) = allSids groups ++ gr.2.map Storage.sid := by
  simp [allSids]

/-- Invariant of the snapshot loop: the storage identities spread over the
groups are pairwise distinct and all recorded in managed_storage_impls. -/
theorem snapshot_foldl_inv (should_share : Value → List Value)
    (pairs : List (Value × Storage)) :
    ∀ s : GroupState, (allSids s.groups).Nodup →
      (∀ x ∈ allSids s.groups, x ∈ s.seen) →
      (allSids (pairs.foldl (snapshotStep should_share) s).groups).Nodup ∧
      (∀ x ∈ allSids (pairs.foldl (snapshotStep should_share) s).groups,
        x ∈ (pairs.foldl (snapshotStep should_share) s).seen) := by
  induction pairs with
  | nil => intro s h1 h2; exact ⟨h1, h2⟩
  | cons p rest ih =>
    intro s h1 h2
    simp only [List.foldl_cons]
    by_cases hseen : s.seen.contains p.2.sid
    · rw [snapshotStep, if_pos hseen]
      exact ih s h1 h2
    · rw [snapshotStep, if_neg hseen]
      have hnotin : p.2.sid ∉ allSids s.groups := by
        intro hx
        exact hseen (by simpa using h2 _ hx)
      cases hidx : lookupIdx s.shared p.1 with
      | some idx =>
        simp only
        by_cases hlt : idx < s.groups.length
        · have hperm := allSids_modifyGroup_perm p.2 idx s.groups hlt
          apply ih
          · rw [hperm.nodup_iff]
            exact List.Nodup.cons hnotin h1
          · intro x hx
            have := hperm.mem_iff.mp hx
            rcases List.mem_cons.mp this with rfl | hx2
            · simp
            · simp only [List.mem_append]
              exact Or.inl (h2 x hx2)
        · rw [modifyGroup_of_le _ _ _ (by omega)]
          apply ih
          · exact h1
          · intro x hx
            simp only [List.mem_append]
            exact Or.inl (h2 x hx)
      | none =>
        simp only
        apply ih
        · rw [allSids_append_single]
          simp only [List.map_cons, List.map_nil]
          rw [List.nodup_append]
          exact ⟨h1, List.nodup_singleton _, by
            intro x hx hmem
            simp only [List.mem_singleton] at hmem
            subst hmem
            exact hnotin hx⟩
        · intro x hx
          rw [allSids_append_single] at hx
          simp only [List.map_cons, List.map_nil, List.mem_append,
            List.mem_singleton] at hx
          simp only [List.mem_append, List.mem_singleton]
          rcases hx with hx | hx
          · exact Or.inl (h2 x hx)
          · exact Or.inr hx

/-- C9: in the storage grouping built by the MemoryPlanner constructor,
every storage identity appears in at most one group (and at most once in
it): the identities across all groups of managed_storage_ are pairwise
distinct, for every registry, graph, processed-node list, runtime memory
state, and should_share map. -/
theorem managed_storage_sids_nodup (reg : OpRegistry) (g : Graph)
    (pnodes : List PNode) (storageOf : Value → Storage)
    (should_share : Value → List Value) :
    (allSids (MemoryPlanner_managed_storage reg g pnodes storageOf
      should_share)).Nodup := by
  unfold MemoryPlanner_managed_storage
  exact (snapshot_foldl_inv should_share
    (managedSnapshotPairs pnodes storageOf (managedValues reg g pnodes))
    (GroupState.mk [] [] []) (by simp [allSids]) (by simp [allSids])).1

/-! ## Part 8: the ReplaceWithCopy pass (passes.cpp lines 195-247)

Alias analysis is external (torch/csrc/jit/ir/alias_analysis); its verdict
mayContainAlias over the graph whose inputs were temporarily replaced by the
synthetic static_runtime::pure_inputs producer (passes.cpp 196-212) is
modelled by the oracle db.  The source collects the replacements in a first
sweep over the unmodified graph and applies them in a second sweep; the new
node is inserted where the old one stood, receives the same inputs, and
takes over all uses of the old outputs, so the net effect is the in-place
kind rewrite below. -/

/-- The fixed op table of ReplaceWithCopy (passes.cpp 214-218). -/
def supportedCopy (k : String) : Option String :=
  if k = "aten::permute" then some "static_runtime::permute_copy"
  else if k = "aten::narrow" then some "aten::narrow_copy"
  else none

/-- Number of uses of a value (Value::uses()): occurrences as a node input
plus occurrences as a graph output (uses by the Return node). -/
def usesCountG (g : Graph) (v : Value) : Nat :=
  (g.nodes.map (fun n => n.inputs.count v)).sum + g.outputs.count v

/-- Replacement condition of the collection sweep (passes.cpp 220-239): kind
in the table, single output with at most one use, and the alias oracle does
not report the output as possibly containing an alias of a graph output. -/
def rwCond (db : Value → Bool) (g : Graph) (n : Node) : Bool :=
  (supportedCopy n.kind).isSome &&
    (match n.outputs with
     | [out] => decide (usesCountG g out ≤ 1) && !(db out)
     | _ => false)

/-- ReplaceWithCopy, passes.cpp 195-247: every node satisfying the
condition, judged on the original graph, has its kind replaced by the copy
variant; everything else is unchanged. -/
def ReplaceWithCopy (db : Value → Bool) (g : Graph) : Graph :=
  { g with nodes := g.nodes.map (fun n =>
      if rwCond db g n then
        { n with kind := (supportedCopy n.kind).getD n.kind }
      else n) }

theorem supportedCopy_ne (k ck : String) (h : supportedCopy k = some ck) :
    ck ≠ k := by
  unfold supportedCopy at h
  split_ifs at h with h1 h2
  · cases h
    rw [h1]
    decide
  · cases h
    rw [h2]
    decide

/-- Graph exhibiting the gap in claim C7: a permute node whose output has
zero uses. -/
def gRWC : Graph :=
  { inputs := [0, 1], outputs := [0],
    nodes := [Node.mk "aten::permute" [0, 1] [2]],
    typeOf := fun _ => Ty.tensor }

/-- C7 counterexample: in gRWC the permute output has zero uses, not
exactly one, and does not alias any graph output, yet the pass rewrites the
node to its copy variant — the source only skips nodes whose output has
more than one use (passes.cpp 226-228). -/
theorem ReplaceWithCopy_claim_counterexample :
    usesCountG gRWC 2 = 0 ∧
    (ReplaceWithCopy (fun _ => false) gRWC).nodes =
      [Node.mk "static_runtime::permute_copy" [0, 1] [2]] := by
  refine ⟨by decide, by decide⟩

/-- C7 amended: ReplaceWithCopy rewrites a node to its copy variant exactly
when the node's kind is in the fixed table, its single output has at most
one use, and the alias oracle (computed with graph inputs replaced by the
synthetic pure producer) clears it of aliasing any graph output; every
other node and the rest of the graph are left unchanged. -/
theorem ReplaceWithCopy_spec (db : Value → Bool) (g : Graph) (i : Nat)
    (n : Node) (out : Value) (hn : g.nodes.get? i = some n)
    (hout : n.outputs = [out]) :
    ((ReplaceWithCopy db g).nodes.get? i ≠ some n ↔
      ((supportedCopy n.kind).isSome = true ∧ usesCountG g out ≤ 1 ∧
        db out = false)) ∧
    ((ReplaceWithCopy db g).nodes.get? i = some n ∨
      ∃ ck, supportedCopy n.kind = some ck ∧
        (ReplaceWithCopy db g).nodes.get? i = some { n with kind := ck }) ∧
    (ReplaceWithCopy db g).inputs = g.inputs ∧
    (ReplaceWithCopy db g).outputs = g.outputs ∧
    (ReplaceWithCopy db g).nodes.length = g.nodes.length := by
  have hmap : (ReplaceWithCopy db g).nodes.get? i =
      some (if rwCond db g n then
        { n with kind := (supportedCopy n.kind).getD n.kind } else n) := by
    unfold ReplaceWithCopy
    simp only [List.get?_map, hn]
    rfl
  have hcond : rwCond db g n = true ↔
      ((supportedCopy n.kind).isSome = true ∧ usesCountG g out ≤ 1 ∧
        db out = false) := by
    unfold rwCond
    rw [hout]
    cases hdb : db out <;> simp [hdb]
  refine ⟨?_, ?_, rfl, rfl, by simp [ReplaceWithCopy]⟩
  · constructor
    · intro hne
      by_cases hc : rwCond db g n = true
      · exact hcond.mp hc
      · rw [hmap, if_neg hc] at hne
        exact absurd rfl hne
    · intro hc
      have hct := hcond.mpr hc
      rw [hmap, if_pos hct]
      intro heq
      rcases Option.isSome_iff_exists.mp hc.1 with ⟨ck, hck⟩
      have : ({ n with kind := (supportedCopy n.kind).getD n.kind } : Node).kind
          = n.kind := by rw [Option.some.injEq] at heq; rw [heq]
      rw [hck] at this
      simp only [Option.getD_some] at this
      exact supportedCopy_ne n.kind ck hck this
  · by_cases hc : rwCond db g n = true
    · right
      rcases Option.isSome_iff_exists.mp (hcond.mp hc).1 with ⟨ck, hck⟩
      refine ⟨ck, hck, ?_⟩
      rw [hmap, if_pos hc, hck]
      simp
    · left
      rw [hmap, if_neg hc]

/-- Graph for the C7 witness: a permute node whose single output has
exactly one use. -/
def gRWC2 : Graph :=
  { inputs := [0, 1], outputs := [3],
    nodes := [Node.mk "aten::permute" [0, 1] [2], Node.mk "aten::relu" [2] [3]],
    typeOf := fun _ => Ty.tensor }

/-- Witness for C7 at gRWC2: the qualifying permute node is rewritten. -/
theorem ReplaceWithCopy_spec_witness :
    (ReplaceWithCopy (fun _ => false) gRWC2).nodes.get? 0 ≠
      some (Node.mk "aten::permute" [0, 1] [2]) :=
  ((ReplaceWithCopy_spec (fun _ => false) gRWC2 0
      (Node.mk "aten::permute" [0, 1] [2]) 2 (by rfl) (by rfl)).1).mpr
    (by refine ⟨by decide, by decide, rfl⟩)

/-! ## Part 9: StaticRuntime::run input binding (impl.cpp lines 324-390)

Node execution itself and output collection are delegated to the operators
(external); the embedding records the control flow of run as an event trace
and returns the vector of values bound to the input slots.  The external
c10::FunctionSchema::checkAndNormalizeInputs is modelled from the spec as
the schema's normalisation function: it normalises positional plus keyword
arguments into positional order. -/

/-- Call schema; normalize models checkAndNormalizeInputs. -/
structure Schema where
  normalize : List Nat → List (String × Nat) → List Nat

/-- Observable steps of one run invocation. -/
inductive REvent where
  | allocateEvent
  | nodeRun (i : Nat)
  | deallocateEvent
deriving DecidableEq

/-- The parts of a StaticRuntime that drive run's control flow. -/
structure StaticRuntime where
  schema : Option Schema
  plannerExists : Bool
  cleanupActivations : Bool
  numNodes : Nat

/-- Message of the TORCH_CHECK at impl.cpp 339-342. -/
def schemaRequiredMsg : String :=
  "Schema is not available. Consider creating the Static Runtime with StaticRuntime(const torch::jit::Module& m) instead."

/-- StaticRuntime::run, impl.cpp 324-390: allocate when the planner exists;
with kwargs present require the schema and bind the normalised arguments,
otherwise bind the positional arguments in order; then run every node, and
deallocate when activations are cleaned up.  The Except carries the bound
input vector; the error is raised before any node runs. -/
def StaticRuntime_run (rt : StaticRuntime) (args : List Nat)
    (kwargs : List (String × Nat)) :
    List REvent × Except String (List Nat) :=
  let ev0 := if rt.plannerExists then [REvent.allocateEvent] else []
  if kwargs.isEmpty then
    (ev0 ++ (List.range rt.numNodes).map REvent.nodeRun ++
       (if rt.cleanupActivations then [REvent.deallocateEvent] else []),
     Except.ok args)
  else
    match rt.schema with
    | none => (ev0, Except.error schemaRequiredMsg)
    | some sch =>
      (ev0 ++ (List.range rt.numNodes).map REvent.nodeRun ++
         (if rt.cleanupActivations then [REvent.deallocateEvent] else []),
       Except.ok (sch.normalize args kwargs))

/-- C8: run fails with the schema-required error iff kwargs is non-empty
and the schema is absent; with empty kwargs the schema is never consulted
(the run is unchanged under any schema) and the arguments are bound
positionally in order; and when the failure occurs, no node has been
executed. -/
theorem StaticRuntime_run_schema_required (rt : StaticRuntime)
    (args : List Nat) (kwargs : List (String × Nat)) :
    ((StaticRuntime_run rt args kwargs).2 = Except.error schemaRequiredMsg ↔
      (kwargs ≠ [] ∧ rt.schema = none)) ∧
    (kwargs = [] →
      (∀ sch2, StaticRuntime_run { rt with schema := sch2 } args kwargs =
        StaticRuntime_run rt args kwargs) ∧
      (StaticRuntime_run rt args kwargs).2 = Except.ok args) ∧
    ((StaticRuntime_run rt args kwargs).2 = Except.error schemaRequiredMsg →
      ∀ i, REvent.nodeRun i ∉ (StaticRuntime_run rt args kwargs).1) := by
  by_cases hk : kwargs.isEmpty
  · have hke : kwargs = [] := List.isEmpty_iff.mp hk
    refine ⟨?_, ?_, ?_⟩
    · simp [StaticRuntime_run, hk, hke]
    · intro _
      exact ⟨fun sch2 => by simp [StaticRuntime_run, hk], by
        simp [StaticRuntime_run, hk]⟩
    · intro herr
      simp [StaticRuntime_run, hk] at herr
  · have hke : kwargs ≠ [] := by
      intro h
      rw [h] at hk
      exact hk rfl
    cases hs : rt.schema with
    | none =>
      refine ⟨?_, ?_, ?_⟩
      · simp [StaticRuntime_run, hk, hs, hke]
      · intro h
        exact absurd h hke
      · intro _ i
        simp only [StaticRuntime_run, hk, hs]
        cases hp : rt.plannerExists <;> simp
    | some sch =>
      refine ⟨?_, ?_, ?_⟩
      · simp [StaticRuntime_run, hk, hs, schemaRequiredMsg]
      · intro h
        exact absurd h hke
      · intro herr
        simp [StaticRuntime_run, hk, hs] at herr

/-- Witness for C8 at a concrete runtime without a schema, called with a
keyword argument: the schema-required error is raised. -/
theorem StaticRuntime_run_schema_required_witness :
    (StaticRuntime_run (StaticRuntime.mk none true true 2)
        [5] [("a", 1)]).2 = Except.error schemaRequiredMsg :=
  ((StaticRuntime_run_schema_required (StaticRuntime.mk none true true 2)
      [5] [("a", 1)]).1).mpr ⟨by simp, rfl⟩

/-! ## Part 10: the liveness analyser LivenessMap (impl.cpp lines 89-170)

State of the algorithm: liveness_map (an unordered map from values to sets
of values; the dom list tracks its key set), always_alive, and live_values
(map from live values to their sets of pending consumer nodes; the liveDom
list tracks its key set).  A consumer is a node index, or none for the use
by the graph Return node, which is never traversed.  The dead-vector of the
source postpones erasure from live_values to the end of each node's input
loop; since an emptied entry is filtered the same way on later occurrences
either way, immediate erasure yields the same state. -/

/-- Indices of the nodes using a value as input. -/
def userIdxs (g : Graph) (v : Value) : List Nat :=
  (List.range g.nodes.length).filter (fun j =>
    match g.nodes.get? j with
    | some n => n.inputs.contains v
    | none => false)

/-- Uses of a value (Value::uses()): by nodes, and by the Return node when
the value is a graph output. -/
def users (g : Graph) (v : Value) : List (Option Nat) :=
  (userIdxs g v).map some ++ (if g.outputs.contains v then [none] else [])

/-- State of the liveness sweep. -/
structure LState where
  lmap : Value → List Value
  dom : List Value
  alwaysAlive : List Value
  live : Value → List (Option Nat)
  liveDom : List Value

/-- add_live_value (impl.cpp 105-124): create the liveness_map entry for v,
record pairwise coexistence with every currently-live value, and add v to
the live set with its pending consumers when it has any use. -/
def addLiveValue (g : Graph) (v : Value) (s : LState) : LState :=
  let lmap2 : Value → List Value := fun w =>
    if w = v then s.liveDom
    else if s.liveDom.contains w then insertV v (s.lmap w)
    else s.lmap w
  if (users g v).isEmpty then
    { s with lmap := lmap2, dom := insertV v s.dom }
  else
    { s with lmap := lmap2, dom := insertV v s.dom,
             live := fun w => if w = v then users g v else s.live w,
             liveDom := insertV v s.liveDom }

/-- Input loop body of traverse_node (impl.cpp 126-140) at node index i: a
constant-produced input joins always_alive; otherwise a live input loses
this node from its pending consumers and is evicted when none remain. -/
def traverseInput (g : Graph) (i : Nat) (s : LState) (input : Value) :
    LState :=
  if producerKind g input = "prim::Constant" then
    { s with alwaysAlive := insertV input s.alwaysAlive }
  else if s.liveDom.contains input then
    let deps2 := (s.live input).filter (fun u => u ≠ some i)
    if deps2.isEmpty then
      { s with live := fun w => if w = input then deps2 else s.live w,
               liveDom := s.liveDom.filter (fun w => w ≠ input) }
    else
      { s with live := fun w => if w = input then deps2 else s.live w }
  else s

/-- traverse_node over all inputs of the node at index i. -/
def traverseNode (g : Graph) (i : Nat) (n : Node) (s : LState) : LState :=
  n.inputs.foldl (traverseInput g i) s

/-- Addition of all outputs of a node as live values. -/
def addAll (g : Graph) (outs : List Value) (s : LState) : LState :=
  outs.foldl (fun s2 v => addLiveValue g v s2) s

/-- Body of the topological sweep (impl.cpp 142-152) for one node: add all
outputs as live values, then traverse the inputs. -/
def stepNode (g : Graph) (s : LState) (p : Nat × Node) : LState :=
  traverseNode g p.1 p.2 (addAll g p.2.outputs s)

/-- Nodes paired with their indices, starting at i. -/
def enumFrom (i : Nat) : List Node → List (Nat × Node)
  | [] => []
  | n :: rest => (i, n) :: enumFrom (i + 1) rest

/-- Initial state (impl.cpp 94-103): always_alive seeded with the graph
inputs and outputs. -/
def initState (g : Graph) : LState :=
  { lmap := fun _ => [], dom := [],
    alwaysAlive := g.outputs.foldl (fun l v => insertV v l)
      (g.inputs.foldl (fun l v => insertV v l) []),
    live := fun _ => [], liveDom := [] }

/-- State after the topological sweep (impl.cpp 142-152); the TORCH_CHECK
at lines 154-156 asserts that its remaining live values are always
alive. -/
def sweep (g : Graph) : LState :=
  (enumFrom 0 g.nodes).foldl (stepNode g) (initState g)

/-- One input/output pair of the post-sweep augmentation (impl.cpp
158-167): when both values have liveness_map entries, insert each into the
set of the other. -/
def augmentPair (a b : Value) (s : LState) : LState :=
  if s.dom.contains a && s.dom.contains b then
    let l1 : Value → List Value := fun w =>
      if w = a then insertV b (s.lmap w) else s.lmap w
    let l2 : Value → List Value := fun w =>
      if w = b then insertV a (l1 w) else l1 w
    { s with lmap := l2 }
  else s

/-- Augmentation over all input/output pairs of one node. -/
def augmentNode (s : LState) (n : Node) : LState :=
  n.inputs.foldl
    (fun s1 a => n.outputs.foldl (fun s2 b => augmentPair a b s2) s1) s

/-- LivenessMap (impl.cpp 89-170): topological sweep followed by the
all-inputs-interfere-with-all-outputs augmentation. -/
def LivenessMap (g : Graph) : LState :=
  g.nodes.foldl augmentNode (sweep g)

/-- Well-formedness of a graph for the liveness contracts: values are
produced by at most one node and at most once (SSA), and every consumer of
a node's output appears strictly later in the topological order. -/
def WF (g : Graph) : Prop :=
  (g.nodes.flatMap Node.outputs).Nodup ∧
  (∀ p ∈ enumFrom 0 g.nodes, ∀ v ∈ p.2.outputs,
    ∀ q ∈ enumFrom 0 g.nodes, v ∈ q.2.inputs → p.1 < q.1)

instance WF_decidable (g : Graph) : Decidable (WF g) := by
  unfold WF
  exact inferInstance

/-! ### Helper lemmas for the liveness development -/

theorem mem_userIdxs (g : Graph) (v : Value) (j : Nat) :
    j ∈ userIdxs g v ↔ ∃ n, g.nodes.get? j = some n ∧ v ∈ n.inputs := by
  simp only [userIdxs, List.mem_filter, List.mem_range]
  constructor
  · rintro ⟨hj, hc⟩
    cases hg : g.nodes.get? j with
    | none => rw [hg] at hc; simp at hc
    | some n =>
      rw [hg] at hc
      exact ⟨n, rfl, by simpa using hc⟩
  · rintro ⟨n, hg, hv⟩
    have hj : j < g.nodes.length := by
      by_contra hle
      rw [List.get?_eq_none.mpr (Nat.le_of_not_lt hle)] at hg
      exact Option.noConfusion hg
    refine ⟨hj, ?_⟩
    rw [hg]
    simpa using hv

theorem userIdxs_lt (g : Graph) (v : Value) (j : Nat)
    (h : j ∈ userIdxs g v) : j < g.nodes.length := by
  have := (List.mem_filter.mp h).1
  simpa using this

theorem some_mem_users (g : Graph) (v : Value) (j : Nat) :
    some j ∈ users g v ↔ j ∈ userIdxs g v := by
  simp only [users, List.mem_append, List.mem_map]
  constructor
  · rintro (⟨i, hi, he⟩ | h)
    · cases he; exact hi
    · split at h <;> simp at h
  · intro h
    exact Or.inl ⟨j, h, rfl⟩

theorem none_mem_users (g : Graph) (v : Value) :
    (none : Option Nat) ∈ users g v ↔ v ∈ g.outputs := by
  simp only [users, List.mem_append, List.mem_map]
  constructor
  · rintro (⟨i, _, he⟩ | h)
    · exact Option.noConfusion he
    · split at h
      · next hc => simpa using hc
      · simp at h
  · intro h
    right
    rw [if_pos (by simpa using h)]
    simp

theorem users_ne_nil_iff (g : Graph) (v : Value) :
    users g v ≠ [] ↔ (∃ j, j ∈ userIdxs g v) ∨ v ∈ g.outputs := by
  constructor
  · intro h
    cases hu : users g v with
    | nil => exact absurd hu h
    | cons u rest =>
      cases u with
      | none =>
        right
        rw [← none_mem_users g v, hu]
        simp
      | some j =>
        left
        exact ⟨j, (some_mem_users g v j).mp (by rw [hu]; simp)⟩
  · rintro (⟨j, hj⟩ | h) <;> intro hnil
    · have := (some_mem_users g v j).mpr hj
      rw [hnil] at this
      simp at this
    · have := (none_mem_users g v).mpr h
      rw [hnil] at this
      simp at this

theorem mem_enumFrom_of_get? (l : List Node) (k j : Nat) (n : Node)
    (h : l.get? j = some n) : (k + j, n) ∈ enumFrom k l := by
  induction l generalizing k j with
  | nil => simp at h
  | cons hd tl ih =>
    cases j with
    | zero =>
      simp only [List.get?] at h
      cases h
      simp [enumFrom]
    | succ i =>
      simp only [List.get?] at h
      have := ih (k + 1) i h
      simp only [enumFrom, List.mem_cons]
      right
      have he : k + 1 + i = k + (i + 1) := by omega
      rw [← he]
      exact this

theorem get?_of_mem_enumFrom (l : List Node) (k : Nat) (p : Nat × Node)
    (h : p ∈ enumFrom k l) : k ≤ p.1 ∧ l.get? (p.1 - k) = some p.2 := by
  induction l generalizing k with
  | nil => simp [enumFrom] at h
  | cons hd tl ih =>
    simp only [enumFrom, List.mem_cons] at h
    rcases h with rfl | h
    · simp
    · rcases ih (k + 1) h with ⟨hk, hg⟩
      refine ⟨by omega, ?_⟩
      have : p.1 - k = (p.1 - (k + 1)) + 1 := by omega
      rw [this]
      simpa using hg

theorem topo_lt (g : Graph) (hwf : WF g) (i j : Nat) (m m2 : Node)
    (v : Value) (hi : g.nodes.get? i = some m) (hv : v ∈ m.outputs)
    (hj : g.nodes.get? j = some m2) (hvj : v ∈ m2.inputs) : i < j := by
  have hp := mem_enumFrom_of_get? g.nodes 0 i m hi
  have hq := mem_enumFrom_of_get? g.nodes 0 j m2 hj
  simpa using hwf.2 (0 + i, m) hp v hv (0 + j, m2) hq hvj

theorem topo_userIdxs (g : Graph) (hwf : WF g) (i : Nat) (m : Node)
    (v : Value) (hi : g.nodes.get? i = some m) (hv : v ∈ m.outputs) :
    ∀ j ∈ userIdxs g v, i < j := by
  intro j hj
  rcases (mem_userIdxs g v j).mp hj with ⟨m2, hm2, hvj⟩
  exact topo_lt g hwf i j m m2 v hi hv hm2 hvj

theorem flatMap_outputs_nodup_at (l : List Node)
    (h : (l.flatMap Node.outputs).Nodup) (i : Nat) (m : Node)
    (hm : l.get? i = some m) : m.outputs.Nodup := by
  induction l generalizing i with
  | nil => simp at hm
  | cons hd tl ih =>
    rw [List.flatMap_cons, List.nodup_append] at h
    cases i with
    | zero =>
      simp only [List.get?] at hm
      cases hm
      exact h.1
    | succ i2 =>
      simp only [List.get?] at hm
      exact ih h.2.1 i2 hm

theorem flatMap_outputs_disjoint : ∀ (l : List Node),
    (l.flatMap Node.outputs).Nodup → ∀ (i j : Nat) (m m2 : Node), i < j →
    l.get? i = some m → l.get? j = some m2 →
    ∀ v, v ∈ m.outputs → v ∈ m2.outputs → False := by
  intro l
  induction l with
  | nil =>
    intro _ i j m m2 _ hi
    simp at hi
  | cons hd tl ih =>
    intro h i j m m2 hij hi hj v hv hv2
    rw [List.flatMap_cons, List.nodup_append] at h
    cases i with
    | zero =>
      simp only [List.get?] at hi
      cases hi
      cases j with
      | zero => omega
      | succ j2 =>
        simp only [List.get?] at hj
        exact h.2.2 hv (List.mem_flatMap.mpr ⟨m2, List.get?_mem hj, hv2⟩)
    | succ i2 =>
      cases j with
      | zero => omega
      | succ j2 =>
        simp only [List.get?] at hi hj
        exact ih h.2.1 i2 j2 m m2 (by omega) hi hj v hv hv2

/-! ### Invariants of the topological sweep -/

/-- Symmetry block: liveness_map is symmetric, irreflexive, supported on
its key set dom, and empty outside dom. -/
def SymOK (s : LState) : Prop :=
  (∀ a b, b ∈ s.lmap a → a ∈ s.lmap b) ∧
  (∀ a, a ∉ s.lmap a) ∧
  (∀ a b, b ∈ s.lmap a → a ∈ s.dom ∧ b ∈ s.dom) ∧
  (∀ a, a ∉ s.dom → s.lmap a = [])

/-- Live-set block: live values are keys of liveness_map, have uses, have a
non-empty pending-consumer set, and live graph outputs keep their Return
use pending. -/
def LiveOK (g : Graph) (s : LState) : Prop :=
  (∀ v ∈ s.liveDom, v ∈ s.dom) ∧
  (∀ v ∈ s.liveDom, users g v ≠ []) ∧
  (∀ v ∈ s.liveDom, s.live v ≠ []) ∧
  (∀ v ∈ s.liveDom, v ∈ g.outputs → (none : Option Nat) ∈ s.live v)

/-- Every liveness_map key is an output of an already-processed node. -/
def DomSrc (g : Graph) (k : Nat) (s : LState) : Prop :=
  ∀ a ∈ s.dom, ∃ i n, g.nodes.get? i = some n ∧ i < k ∧ a ∈ n.outputs

/-- Pending consumers of a live non-constant non-output value are exactly
its users among the nodes not yet processed. -/
def LiveChar (g : Graph) (k : Nat) (s : LState) : Prop :=
  ∀ v ∈ s.liveDom, producerKind g v ≠ "prim::Constant" → v ∉ g.outputs →
    ∀ u, u ∈ s.live v ↔ ∃ j, u = some j ∧ k ≤ j ∧ j ∈ userIdxs g v

/-- always_alive contains the graph inputs and outputs and every
constant-produced input of an already-processed node. -/
def AliveOK (g : Graph) (k : Nat) (s : LState) : Prop :=
  (∀ v ∈ g.inputs, v ∈ s.alwaysAlive) ∧
  (∀ v ∈ g.outputs, v ∈ s.alwaysAlive) ∧
  (∀ i n, g.nodes.get? i = some n → i < k →
    ∀ a ∈ n.inputs, producerKind g a = "prim::Constant" → a ∈ s.alwaysAlive)

/-- Combined invariant after processing the first k nodes. -/
def SweepInv (g : Graph) (k : Nat) (s : LState) : Prop :=
  SymOK s ∧ LiveOK g s ∧ DomSrc g k s ∧ LiveChar g k s ∧ AliveOK g k s

/-! ### Effect of addLiveValue -/

theorem addLiveValue_dom (g : Graph) (v : Value) (s : LState) :
    (addLiveValue g v s).dom = insertV v s.dom := by
  unfold addLiveValue
  split <;> rfl

theorem addLiveValue_alwaysAlive (g : Graph) (v : Value) (s : LState) :
    (addLiveValue g v s).alwaysAlive = s.alwaysAlive := by
  unfold addLiveValue
  split <;> rfl

theorem addLiveValue_lmap (g : Graph) (v : Value) (s : LState) :
    (addLiveValue g v s).lmap = fun w =>
      if w = v then s.liveDom
      else if s.liveDom.contains w then insertV v (s.lmap w)
      else s.lmap w := by
  unfold addLiveValue
  split <;> rfl

theorem addLiveValue_lmap_mem (g : Graph) (v : Value) (s : LState)
    (w x : Value) :
    x ∈ (addLiveValue g v s).lmap w ↔
      (w = v ∧ x ∈ s.liveDom) ∨ (w ≠ v ∧ x ∈ s.lmap w) ∨
      (w ≠ v ∧ w ∈ s.liveDom ∧ x = v) := by
  rw [addLiveValue_lmap]
  by_cases hw : w = v
  · subst hw
    simp
  · simp only [if_neg hw]
    by_cases hc : s.liveDom.contains w
    · rw [if_pos hc, mem_insertV]
      have hcm : w ∈ s.liveDom := by simpa using hc
      simp only [hw, hcm]
      tauto
    · rw [if_neg hc]
      have hcm : w ∉ s.liveDom := by simpa using hc
      simp only [hw, hcm]
      tauto

theorem addLiveValue_lmap_untouched (g : Graph) (v : Value) (s : LState)
    (w : Value) (hw : w ≠ v) (hld : w ∉ s.liveDom) :
    (addLiveValue g v s).lmap w = s.lmap w := by
  rw [addLiveValue_lmap]
  simp only [if_neg hw]
  rw [if_neg (by simpa using hld)]

theorem addLiveValue_live_empty (g : Graph) (v : Value) (s : LState)
    (h : (users g v).isEmpty = true) :
    (addLiveValue g v s).live = s.live ∧
    (addLiveValue g v s).liveDom = s.liveDom := by
  unfold addLiveValue
  rw [if_pos h]
  exact ⟨rfl, rfl⟩

theorem addLiveValue_live_nonempty (g : Graph) (v : Value) (s : LState)
    (h : (users g v).isEmpty = false) :
    (addLiveValue g v s).liveDom = insertV v s.liveDom ∧
    (addLiveValue g v s).live v = users g v ∧
    (∀ w, w ≠ v → (addLiveValue g v s).live w = s.live w) := by
  have he : addLiveValue g v s =
      { s with
        lmap := fun w =>
          if w = v then s.liveDom
          else if s.liveDom.contains w then insertV v (s.lmap w)
          else s.lmap w,
        dom := insertV v s.dom,
        live := fun w => if w = v then users g v else s.live w,
        liveDom := insertV v s.liveDom } := by
    unfold addLiveValue
    rw [if_neg (by simp [h])]
  rw [he]
  refine ⟨rfl, by simp, ?_⟩
  intro w hw
  simp [hw]

/-- One addLiveValue step preserves the sweep invariant for a fresh output
of the node currently being processed. -/
theorem addLiveValue_step (g : Graph) (k : Nat) (n : Node)
    (hk : g.nodes.get? k = some n) (v : Value) (s : LState)
    (hv : v ∈ n.outputs) (hfresh : v ∉ s.dom)
    (husers : ∀ j ∈ userIdxs g v, k < j)
    (hsym : SymOK s) (hlive : LiveOK g s) (hdom : DomSrc g (k + 1) s)
    (hchar : LiveChar g k s) (halive : AliveOK g k s) :
    SymOK (addLiveValue g v s) ∧ LiveOK g (addLiveValue g v s) ∧
    DomSrc g (k + 1) (addLiveValue g v s) ∧
    LiveChar g k (addLiveValue g v s) ∧ AliveOK g k (addLiveValue g v s) := by
  obtain ⟨hsy, hir, hld, hlo⟩ := hsym
  obtain ⟨hl1, hl2, hl3, hl4⟩ := hlive
  have hvld : v ∉ s.liveDom := fun h => hfresh (hl1 v h)
  refine ⟨⟨?_, ?_, ?_, ?_⟩, ?_, ?_, ?_, ?_⟩
  · -- symmetry
    intro a b hb
    rcases (addLiveValue_lmap_mem g v s a b).mp hb with
      ⟨ha, hbl⟩ | ⟨ha, hbl⟩ | ⟨ha, hal, hbv2⟩
    · rw [ha]
      refine (addLiveValue_lmap_mem g v s b v).mpr ?_
      have hbv : b ≠ v := fun h => hfresh (h ▸ hl1 b hbl)
      exact Or.inr (Or.inr ⟨hbv, hbl, rfl⟩)
    · refine (addLiveValue_lmap_mem g v s b a).mpr ?_
      have hbv : b ≠ v := fun h => hfresh (h ▸ (hld a b hbl).2)
      exact Or.inr (Or.inl ⟨hbv, hsy a b hbl⟩)
    · rw [hbv2]
      refine (addLiveValue_lmap_mem g v s v a).mpr ?_
      exact Or.inl ⟨rfl, hal⟩
  · -- irreflexivity
    intro a ha
    rcases (addLiveValue_lmap_mem g v s a a).mp ha with
      ⟨rfl, hal⟩ | ⟨_, hal⟩ | ⟨hav, _, rfl⟩
    · exact hfresh (hl1 a hal)
    · exact hir a hal
    · exact hav rfl
  · -- support in dom
    intro a b hb
    rw [addLiveValue_dom]
    rw [mem_insertV, mem_insertV]
    rcases (addLiveValue_lmap_mem g v s a b).mp hb with
      ⟨rfl, hbl⟩ | ⟨_, hbl⟩ | ⟨_, hal, rfl⟩
    · exact ⟨Or.inr rfl, Or.inl (hl1 b hbl)⟩
    · exact ⟨Or.inl (hld a b hbl).1, Or.inl (hld a b hbl).2⟩
    · exact ⟨Or.inl (hl1 a hal), Or.inr rfl⟩
  · -- empty off dom
    intro a ha
    rw [addLiveValue_dom, mem_insertV] at ha
    push_neg at ha
    have hand : a ∉ s.dom := ha.1
    have hav : a ≠ v := ha.2
    rw [addLiveValue_lmap_untouched g v s a hav (fun h => hand (hl1 a h))]
    exact hlo a hand
  · -- LiveOK
    unfold LiveOK
    cases hu : (users g v).isEmpty with
    | true =>
      obtain ⟨he1, he2⟩ := addLiveValue_live_empty g v s hu
      rw [addLiveValue_dom]
      refine ⟨?_, ?_, ?_, ?_⟩ <;> rw [he2] <;> intro w hw
      · rw [mem_insertV]
        exact Or.inl (hl1 w hw)
      · exact hl2 w hw
      · rw [he1]
        exact hl3 w hw
      · rw [he1]
        exact hl4 w hw
    | false =>
      obtain ⟨he1, he2, he3⟩ := addLiveValue_live_nonempty g v s hu
      rw [addLiveValue_dom]
      have husersne : users g v ≠ [] := by
        intro h
        rw [h] at hu
        simp at hu
      refine ⟨?_, ?_, ?_, ?_⟩ <;> rw [he1] <;> intro w hw <;>
        rw [mem_insertV] at hw
      · rw [mem_insertV]
        rcases hw with hw | rfl
        · exact Or.inl (hl1 w hw)
        · exact Or.inr rfl
      · rcases hw with hw | rfl
        · exact hl2 w hw
        · exact husersne
      · rcases hw with hw | rfl
        · rw [he3 w (fun h => hvld (h ▸ hw))]
          exact hl3 w hw
        · rw [he2]
          exact husersne
      · intro hout
        rcases hw with hw | rfl
        · rw [he3 w (fun h => hvld (h ▸ hw))]
          exact hl4 w hw hout
        · rw [he2]
          exact (none_mem_users g w).mpr hout
  · -- DomSrc
    intro a ha
    rw [addLiveValue_dom, mem_insertV] at ha
    rcases ha with ha | rfl
    · exact hdom a ha
    · exact ⟨k, n, hk, by omega, hv⟩
  · -- LiveChar
    cases hu : (users g v).isEmpty with
    | true =>
      obtain ⟨he1, he2⟩ := addLiveValue_live_empty g v s hu
      intro w hw hcn hout u
      rw [he1]
      rw [he2] at hw
      exact hchar w hw hcn hout u
    | false =>
      obtain ⟨he1, he2, he3⟩ := addLiveValue_live_nonempty g v s hu
      intro w hw hcn hout u
      rw [he1, mem_insertV] at hw
      rcases hw with hw | rfl
      · rw [he3 w (fun h => hvld (h ▸ hw))]
        exact hchar w hw hcn hout u
      · rw [he2]
        constructor
        · intro humem
          cases u with
          | none => exact absurd ((none_mem_users g w).mp humem) hout
          | some j =>
            have hj := (some_mem_users g w j).mp humem
            exact ⟨j, rfl, Nat.le_of_lt (husers j hj), hj⟩
        · rintro ⟨j, rfl, _, hj⟩
          exact (some_mem_users g w j).mpr hj
  · -- AliveOK
    unfold AliveOK
    rw [addLiveValue_alwaysAlive]
    exact halive

/-- addAll preserves the sweep invariant for the outputs of the node being
processed, and its key set grows by exactly those outputs. -/
theorem addAll_step (g : Graph) (k : Nat) (n : Node) (hwf : WF g)
    (hk : g.nodes.get? k = some n) :
    ∀ (outs : List Value) (s : LState), outs.Nodup →
    (∀ v ∈ outs, v ∈ n.outputs) → (∀ v ∈ outs, v ∉ s.dom) →
    SymOK s → LiveOK g s → DomSrc g (k + 1) s → LiveChar g k s →
    AliveOK g k s →
    SymOK (addAll g outs s) ∧ LiveOK g (addAll g outs s) ∧
    DomSrc g (k + 1) (addAll g outs s) ∧ LiveChar g k (addAll g outs s) ∧
    AliveOK g k (addAll g outs s) ∧
    (∀ x, x ∈ (addAll g outs s).dom ↔ x ∈ s.dom ∨ x ∈ outs) := by
  intro outs
  induction outs with
  | nil =>
    intro s _ _ _ h1 h2 h3 h4 h5
    exact ⟨h1, h2, h3, h4, h5, by simp [addAll]⟩
  | cons v rest ih =>
    intro s hnd hsub hfresh h1 h2 h3 h4 h5
    have hv : v ∈ n.outputs := hsub v (by simp)
    have hvf : v ∉ s.dom := hfresh v (by simp)
    have husers : ∀ j ∈ userIdxs g v, k < j :=
      topo_userIdxs g hwf k n v hk hv
    obtain ⟨a1, a2, a3, a4, a5⟩ :=
      addLiveValue_step g k n hk v s hv hvf husers h1 h2 h3 h4 h5
    have hstep : addAll g (v :: rest) s = addAll g rest (addLiveValue g v s)
      := rfl
    rw [hstep]
    have hdomv : ∀ x, x ∈ (addLiveValue g v s).dom ↔ x ∈ s.dom ∨ x = v := by
      intro x
      rw [addLiveValue_dom, mem_insertV]
    have hrest := ih (addLiveValue g v s) (List.Nodup.of_cons hnd)
      (fun w hw => hsub w (by simp [hw]))
      (fun w hw => by
        rw [hdomv w]
        rintro (hws | rfl)
        · exact hfresh w (by simp [hw]) hws
        · exact (List.nodup_cons.mp hnd).1 hw)
      a1 a2 a3 a4 a5
    refine ⟨hrest.1, hrest.2.1, hrest.2.2.1, hrest.2.2.2.1,
      hrest.2.2.2.2.1, ?_⟩
    intro x
    rw [hrest.2.2.2.2.2 x, hdomv x]
    simp only [List.mem_cons]
    tauto

/-! ### Effect of traverse_node -/

/-- Characterization of the pending consumers mid-way through the input loop
of node k: P holds on the inputs already traversed, whose pending use by
node k has been discharged. -/
def MidChar (g : Graph) (k : Nat) (P : Value → Prop) (s : LState) : Prop :=
  ∀ v ∈ s.liveDom, producerKind g v ≠ "prim::Constant" → v ∉ g.outputs →
    ∀ u, u ∈ s.live v ↔
      ∃ j, u = some j ∧ k ≤ j ∧ j ∈ userIdxs g v ∧ (j = k → ¬P v)

theorem MidChar_congr (g : Graph) (k : Nat) (P Q : Value → Prop)
    (s : LState) (h : ∀ v, P v ↔ Q v) (hm : MidChar g k P s) :
    MidChar g k Q s := by
  intro v hv hc ho u
  rw [hm v hv hc ho u]
  constructor
  · rintro ⟨j, rfl, h1, h2, h3⟩
    exact ⟨j, rfl, h1, h2, fun hj hq => h3 hj ((h v).mpr hq)⟩
  · rintro ⟨j, rfl, h1, h2, h3⟩
    exact ⟨j, rfl, h1, h2, fun hj hp => h3 hj ((h v).mp hp)⟩

theorem LiveChar_toMid (g : Graph) (k : Nat) (s : LState)
    (h : LiveChar g k s) : MidChar g k (fun _ => False) s := by
  intro v hv hc ho u
  rw [h v hv hc ho u]
  constructor
  · rintro ⟨j, rfl, h1, h2⟩
    exact ⟨j, rfl, h1, h2, fun _ hf => hf⟩
  · rintro ⟨j, rfl, h1, h2, _⟩
    exact ⟨j, rfl, h1, h2⟩

theorem MidChar_toLive (g : Graph) (k : Nat) (n : Node)
    (hk : g.nodes.get? k = some n) (s : LState)
    (h : MidChar g k (fun v => v ∈ n.inputs) s) : LiveChar g (k + 1) s := by
  intro v hv hc ho u
  rw [h v hv hc ho u]
  constructor
  · rintro ⟨j, rfl, h1, h2, h3⟩
    refine ⟨j, rfl, ?_, h2⟩
    rcases Nat.lt_or_ge k j with hlt | hge
    · omega
    · have hj : j = k := by omega
      subst hj
      rcases (mem_userIdxs g v j).mp h2 with ⟨n2, hn2, hvin⟩
      rw [hk] at hn2
      cases hn2
      exact absurd hvin (h3 rfl)
  · rintro ⟨j, rfl, h1, h2⟩
    exact ⟨j, rfl, by omega, h2, fun hj => by omega⟩

/-- One traverseInput step: the invariants are preserved, the traversed
input's pending use of node k is discharged, always_alive grows
monotonically and absorbs constant-produced inputs. -/
theorem traverseInput_step (g : Graph) (k : Nat) (a : Value) (s : LState)
    (P : Value → Prop)
    (hsym : SymOK s) (hlive : LiveOK g s) (hdom : DomSrc g (k + 1) s)
    (halive : AliveOK g k s) (hmc : MidChar g k P s) :
    SymOK (traverseInput g k s a) ∧ LiveOK g (traverseInput g k s a) ∧
    DomSrc g (k + 1) (traverseInput g k s a) ∧
    AliveOK g k (traverseInput g k s a) ∧
    MidChar g k (fun v => P v ∨ v = a) (traverseInput g k s a) ∧
    (∀ x ∈ s.alwaysAlive, x ∈ (traverseInput g k s a).alwaysAlive) ∧
    (producerKind g a = "prim::Constant" →
      a ∈ (traverseInput g k s a).alwaysAlive) ∧
    (traverseInput g k s a).dom = s.dom ∧
    (traverseInput g k s a).lmap = s.lmap ∧
    (∀ x ∈ (traverseInput g k s a).liveDom, x ∈ s.liveDom) := by
  obtain ⟨hl1, hl2, hl3, hl4⟩ := hlive
  obtain ⟨ha1, ha2, ha3⟩ := halive
  by_cases hc : producerKind g a = "prim::Constant"
  · have he : traverseInput g k s a =
        { s with alwaysAlive := insertV a s.alwaysAlive } := by
      unfold traverseInput
      rw [if_pos hc]
    rw [he]
    refine ⟨hsym, ⟨hl1, hl2, hl3, hl4⟩, hdom, ⟨?_, ?_, ?_⟩, ?_, ?_, ?_,
      rfl, rfl, fun x hx => hx⟩
    · intro v hv
      rw [mem_insertV]
      exact Or.inl (ha1 v hv)
    · intro v hv
      rw [mem_insertV]
      exact Or.inl (ha2 v hv)
    · intro i n2 hi hik b hb hbc
      rw [mem_insertV]
      exact Or.inl (ha3 i n2 hi hik b hb hbc)
    · intro v hv hcn ho u
      have hva : v ≠ a := fun h2 => hcn (h2 ▸ hc)
      rw [hmc v hv hcn ho u]
      constructor <;> rintro ⟨j, rfl, h1, h2, h3⟩ <;>
        refine ⟨j, rfl, h1, h2, fun hj => ?_⟩
      · rintro (hp | hva2)
        · exact h3 hj hp
        · exact hva hva2
      · intro hp
        exact h3 hj (Or.inl hp)
    · intro x hx
      rw [mem_insertV]
      exact Or.inl hx
    · intro _
      rw [mem_insertV]
      exact Or.inr rfl
  · by_cases hld : s.liveDom.contains a
    · have hlda : a ∈ s.liveDom := by simpa using hld
      by_cases hde : ((s.live a).filter (fun u => u ≠ some k)).isEmpty
      · have he : traverseInput g k s a =
            { s with
              live := fun w => if w = a then
                (s.live a).filter (fun u => u ≠ some k) else s.live w,
              liveDom := s.liveDom.filter (fun w => w ≠ a) } := by
          unfold traverseInput
          rw [if_neg hc, if_pos hld, if_pos hde]
        rw [he]
        have hmemf : ∀ x, x ∈ s.liveDom.filter (fun w => w ≠ a) ↔
            x ∈ s.liveDom ∧ x ≠ a := by
          intro x
          simp [List.mem_filter]
        refine ⟨hsym, ⟨?_, ?_, ?_, ?_⟩, hdom, ⟨ha1, ha2, ha3⟩, ?_,
          fun x hx => hx, fun h2 => absurd h2 hc, rfl, rfl, ?_⟩
        · intro v hv
          exact hl1 v ((hmemf v).mp hv).1
        · intro v hv
          exact hl2 v ((hmemf v).mp hv).1
        · intro v hv
          obtain ⟨hvl, hva⟩ := (hmemf v).mp hv
          simp only [if_neg hva]
          exact hl3 v hvl
        · intro v hv ho
          obtain ⟨hvl, hva⟩ := (hmemf v).mp hv
          simp only [if_neg hva]
          exact hl4 v hvl ho
        · intro v hv hcn ho u
          obtain ⟨hvl, hva⟩ := (hmemf v).mp hv
          simp only [if_neg hva]
          rw [hmc v hvl hcn ho u]
          constructor <;> rintro ⟨j, rfl, h1, h2, h3⟩ <;>
            refine ⟨j, rfl, h1, h2, fun hj => ?_⟩
          · rintro (hp | hva2)
            · exact h3 hj hp
            · exact hva hva2
          · intro hp
            exact h3 hj (Or.inl hp)
        · intro x hx
          exact ((hmemf x).mp hx).1
      · have he : traverseInput g k s a =
            { s with
              live := fun w => if w = a then
                (s.live a).filter (fun u => u ≠ some k) else s.live w } := by
          unfold traverseInput
          rw [if_neg hc, if_pos hld, if_neg hde]
        rw [he]
        have hdene : (s.live a).filter (fun u => u ≠ some k) ≠ [] := by
          intro h2
          rw [h2] at hde
          exact hde rfl
        refine ⟨hsym, ⟨hl1, hl2, ?_, ?_⟩, hdom, ⟨ha1, ha2, ha3⟩, ?_,
          fun x hx => hx, fun h2 => absurd h2 hc, rfl, rfl,
          fun x hx => hx⟩
        · intro v hv
          by_cases hva : v = a
          · simp only [if_pos hva]
            exact hdene
          · simp only [if_neg hva]
            exact hl3 v hv
        · intro v hv ho
          by_cases hva : v = a
          · simp only [if_pos hva]
            rw [List.mem_filter]
            exact ⟨hva ▸ hl4 v hv ho, by simp⟩
          · simp only [if_neg hva]
            exact hl4 v hv ho
        · intro v hv hcn ho u
          by_cases hva : v = a
          · simp only [if_pos hva]
            rw [List.mem_filter, ← hva]
            rw [hmc v hv hcn ho u]
            constructor
            · rintro ⟨⟨j, rfl, h1, h2, h3⟩, hne⟩
              refine ⟨j, rfl, h1, h2, fun hj => ?_⟩
              intro _
              rw [hj] at hne
              simp at hne
            · rintro ⟨j, rfl, h1, h2, h3⟩
              have hjk : j ≠ k := fun hj => h3 hj (Or.inr rfl)
              exact ⟨⟨j, rfl, h1, h2, fun hj => absurd hj hjk⟩,
                by simpa using fun hj => hjk (by simpa using hj)⟩
          · simp only [if_neg hva]
            rw [hmc v hv hcn ho u]
            constructor <;> rintro ⟨j, rfl, h1, h2, h3⟩ <;>
              refine ⟨j, rfl, h1, h2, fun hj => ?_⟩
            · rintro (hp | hva2)
              · exact h3 hj hp
              · exact hva hva2
            · intro hp
              exact h3 hj (Or.inl hp)
    · have he : traverseInput g k s a = s := by
        unfold traverseInput
        rw [if_neg hc, if_neg hld]
      rw [he]
      have hlda : a ∉ s.liveDom := by simpa using hld
      refine ⟨hsym, ⟨hl1, hl2, hl3, hl4⟩, hdom, ⟨ha1, ha2, ha3⟩, ?_,
        fun x hx => hx, fun h2 => absurd h2 hc, rfl, rfl,
        fun x hx => hx⟩
      intro v hv hcn ho u
      have hva : v ≠ a := fun h2 => hlda (h2 ▸ hv)
      rw [hmc v hv hcn ho u]
      constructor <;> rintro ⟨j, rfl, h1, h2, h3⟩ <;>
        refine ⟨j, rfl, h1, h2, fun hj => ?_⟩
      · rintro (hp | hva2)
        · exact h3 hj hp
        · exact hva hva2
      · intro hp
        exact h3 hj (Or.inl hp)

theorem traverseNode_fold (g : Graph) (k : Nat) :
    ∀ (ins : List Value) (s : LState) (P : Value → Prop),
    SymOK s → LiveOK g s → DomSrc g (k + 1) s → AliveOK g k s →
    MidChar g k P s →
    SymOK (ins.foldl (traverseInput g k) s) ∧
    LiveOK g (ins.foldl (traverseInput g k) s) ∧
    DomSrc g (k + 1) (ins.foldl (traverseInput g k) s) ∧
    AliveOK g k (ins.foldl (traverseInput g k) s) ∧
    MidChar g k (fun v => P v ∨ v ∈ ins) (ins.foldl (traverseInput g k) s) ∧
    (∀ a ∈ ins, producerKind g a = "prim::Constant" →
      a ∈ (ins.foldl (traverseInput g k) s).alwaysAlive) ∧
    (∀ x ∈ s.alwaysAlive, x ∈ (ins.foldl (traverseInput g k) s).alwaysAlive)
    := by
  intro ins
  induction ins with
  | nil =>
    intro s P h1 h2 h3 h4 h5
    refine ⟨h1, h2, h3, h4, ?_, by simp, fun x hx => hx⟩
    exact MidChar_congr g k P (fun v => P v ∨ v ∈ ([] : List Value)) s
      (fun v => by simp) h5
  | cons a rest ih =>
    intro s P h1 h2 h3 h4 h5
    obtain ⟨t1, t2, t3, t4, t5, t6, t7, _, _, _⟩ :=
      traverseInput_step g k a s P h1 h2 h3 h4 h5
    simp only [List.foldl_cons]
    obtain ⟨r1, r2, r3, r4, r5, r6, r7⟩ :=
      ih (traverseInput g k s a) (fun v => P v ∨ v = a) t1 t2 t3 t4 t5
    refine ⟨r1, r2, r3, r4, ?_, ?_, ?_⟩
    · refine MidChar_congr g k _ _ _ (fun v => ?_) r5
      simp only [List.mem_cons]
      tauto
    · intro b hb hbc
      rcases List.mem_cons.mp hb with rfl | hb2
      · exact r7 b (t7 hbc)
      · exact r6 b hb2 hbc
    · intro x hx
      exact r7 x (t6 x hx)

/-- Processing one node preserves the sweep invariant, advancing the
processed bound. -/
theorem stepNode_inv (g : Graph) (hwf : WF g) (k : Nat) (n : Node)
    (hk : g.nodes.get? k = some n) (s : LState)
    (hinv : SweepInv g k s) : SweepInv g (k + 1) (stepNode g s (k, n)) := by
  obtain ⟨hsym, hlive, hdom, hchar, halive⟩ := hinv
  have hfresh : ∀ v ∈ n.outputs, v ∉ s.dom := by
    intro v hv hvd
    rcases hdom v hvd with ⟨i, m, hi, hik, hvm⟩
    exact flatMap_outputs_disjoint g.nodes hwf.1 i k m n hik hi hk v hvm hv
  have hnd : n.outputs.Nodup := flatMap_outputs_nodup_at g.nodes hwf.1 k n hk
  have hdom1 : DomSrc g (k + 1) s := by
    intro a ha
    rcases hdom a ha with ⟨i, m, hi, hik, hvm⟩
    exact ⟨i, m, hi, by omega, hvm⟩
  obtain ⟨a1, a2, a3, a4, a5, hdomc⟩ := addAll_step g k n hwf hk n.outputs s
    hnd (fun v hv => hv) hfresh hsym hlive hdom1 hchar halive
  have hmid := LiveChar_toMid g k (addAll g n.outputs s) a4
  obtain ⟨t1, t2, t3, t4, t5, t6, t7⟩ := traverseNode_fold g k n.inputs
    (addAll g n.outputs s) (fun _ => False) a1 a2 a3 a5 hmid
  have hs2 : stepNode g s (k, n) =
      n.inputs.foldl (traverseInput g k) (addAll g n.outputs s) := rfl
  rw [hs2]
  refine ⟨t1, t2, t3, ?_, ?_⟩
  · apply MidChar_toLive g k n hk
    refine MidChar_congr g k _ _ _ (fun v => ?_) t5
    simp
  · obtain ⟨b1, b2, b3⟩ := t4
    refine ⟨b1, b2, ?_⟩
    intro i n2 hi hik a hain hconst
    rcases Nat.lt_or_ge i k with hik2 | hik2
    · exact b3 i n2 hi hik2 a hain hconst
    · have hik3 : i = k := by omega
      subst hik3
      rw [hk] at hi
      cases hi
      exact t6 a hain hconst

theorem enumFrom_fold_inv (g : Graph) (hwf : WF g) :
    ∀ (rest : List Node) (k : Nat) (s : LState),
    (∀ j n2, rest.get? j = some n2 → g.nodes.get? (k + j) = some n2) →
    SweepInv g k s →
    SweepInv g (k + rest.length) ((enumFrom k rest).foldl (stepNode g) s)
    := by
  intro rest
  induction rest with
  | nil =>
    intro k s _ hinv
    simpa [enumFrom] using hinv
  | cons n rest2 ih =>
    intro k s hal hinv
    have hk : g.nodes.get? k = some n := by
      have := hal 0 n (by simp)
      simpa using this
    have hstep := stepNode_inv g hwf k n hk s hinv
    have hal2 : ∀ j n2, rest2.get? j = some n2 →
        g.nodes.get? (k + 1 + j) = some n2 := by
      intro j n2 hj
      have := hal (j + 1) n2 (by simpa using hj)
      have harr : k + (j + 1) = k + 1 + j := by omega
      rw [harr] at this
      exact this
    have := ih (k + 1) (stepNode g s (k, n)) hal2 hstep
    have hlen : k + 1 + rest2.length = k + (n :: rest2).length := by
      simp [List.length_cons]
      omega
    rw [hlen] at this
    simpa [enumFrom] using this

theorem initState_inv (g : Graph) : SweepInv g 0 (initState g) := by
  refine ⟨⟨?_, ?_, ?_, ?_⟩, ⟨?_, ?_, ?_, ?_⟩, ?_, ?_, ⟨?_, ?_, ?_⟩⟩ <;>
    try intro a
  · intro b hb
    simp [initState] at hb
  · intro hb
    simp [initState] at hb
  · intro b hb
    simp [initState] at hb
  · intro _
    rfl
  · intro hb
    simp [initState] at hb
  · intro hb
    simp [initState] at hb
  · intro hb
    simp [initState] at hb
  · intro hb
    simp [initState] at hb
  · intro ha
    simp [initState] at ha
  · intro hv hc ho u
    simp [initState] at hv
  · intro ha
    show a ∈ g.outputs.foldl (fun l v => insertV v l)
      (g.inputs.foldl (fun l v => insertV v l) [])
    rw [mem_foldl_insertV]
    left
    rw [mem_foldl_insertV]
    right
    exact ha
  · intro ha
    show a ∈ g.outputs.foldl (fun l v => insertV v l)
      (g.inputs.foldl (fun l v => insertV v l) [])
    rw [mem_foldl_insertV]
    right
    exact ha
  · intro n hn hlt
    omega

/-- The sweep invariant at the end of the topological sweep. -/
theorem sweep_inv (g : Graph) (hwf : WF g) :
    SweepInv g g.nodes.length (sweep g) := by
  have := enumFrom_fold_inv g hwf g.nodes 0 (initState g)
    (fun j n2 hj => by simpa using hj) (initState_inv g)
  simpa [sweep] using this

/-! ### Effect of the post-sweep augmentation -/

theorem augmentPair_dom (a b : Value) (s : LState) :
    (augmentPair a b s).dom = s.dom := by
  unfold augmentPair
  split <;> rfl

theorem augmentPair_lmap_mem (a b : Value) (s : LState) (w x : Value) :
    x ∈ (augmentPair a b s).lmap w ↔
      x ∈ s.lmap w ∨
      (a ∈ s.dom ∧ b ∈ s.dom ∧ ((w = a ∧ x = b) ∨ (w = b ∧ x = a))) := by
  unfold augmentPair
  by_cases hg : (s.dom.contains a && s.dom.contains b) = true
  · rw [if_pos hg]
    rw [Bool.and_eq_true] at hg
    have hga : a ∈ s.dom := by simpa using hg.1
    have hgb : b ∈ s.dom := by simpa using hg.2
    show x ∈ (if w = b then insertV a (if w = a then insertV b (s.lmap w)
        else s.lmap w) else if w = a then insertV b (s.lmap w)
        else s.lmap w) ↔ _
    by_cases hwb : w = b <;> by_cases hwa : w = a
    · rw [if_pos hwb, if_pos hwa, mem_insertV, mem_insertV]
      tauto
    · rw [if_pos hwb, if_neg hwa, mem_insertV]
      tauto
    · rw [if_neg hwb, if_pos hwa, mem_insertV]
      tauto
    · rw [if_neg hwb, if_neg hwa]
      tauto
  · rw [if_neg hg]
    have hng : ¬(a ∈ s.dom ∧ b ∈ s.dom) := by
      rintro ⟨h1, h2⟩
      apply hg
      rw [Bool.and_eq_true]
      exact ⟨by simpa using h1, by simpa using h2⟩
    constructor
    · intro h
      exact Or.inl h
    · rintro (h | ⟨h1, h2, _⟩)
      · exact h
      · exact absurd ⟨h1, h2⟩ hng

theorem augmentPair_lmap_untouched (a b : Value) (s : LState) (w : Value)
    (hwa : w ≠ a) (hwb : w ≠ b) :
    (augmentPair a b s).lmap w = s.lmap w := by
  unfold augmentPair
  split
  · show (if w = b then insertV a (if w = a then insertV b (s.lmap w)
        else s.lmap w) else if w = a then insertV b (s.lmap w)
        else s.lmap w) = s.lmap w
    rw [if_neg hwb, if_neg hwa]
  · rfl

theorem augmentPair_sym (a b : Value) (s : LState) (hab : a ≠ b)
    (h : SymOK s) : SymOK (augmentPair a b s) := by
  obtain ⟨hs, hi, hd, ho⟩ := h
  refine ⟨?_, ?_, ?_, ?_⟩
  · intro w x hx
    rcases (augmentPair_lmap_mem a b s w x).mp hx with
      hold | ⟨hda, hdb, ⟨hw, hx2⟩ | ⟨hw, hx2⟩⟩
    · exact (augmentPair_lmap_mem a b s x w).mpr (Or.inl (hs w x hold))
    · refine (augmentPair_lmap_mem a b s x w).mpr
        (Or.inr ⟨hda, hdb, Or.inr ⟨hx2, hw⟩⟩)
    · refine (augmentPair_lmap_mem a b s x w).mpr
        (Or.inr ⟨hda, hdb, Or.inl ⟨hx2, hw⟩⟩)
  · intro w hw
    rcases (augmentPair_lmap_mem a b s w w).mp hw with
      hold | ⟨_, _, ⟨hw1, hw2⟩ | ⟨hw1, hw2⟩⟩
    · exact hi w hold
    · exact hab (hw1.symm.trans hw2)
    · exact hab (hw2.symm.trans hw1)
  · intro w x hx
    rw [augmentPair_dom]
    rcases (augmentPair_lmap_mem a b s w x).mp hx with
      hold | ⟨hda, hdb, ⟨hw, hx2⟩ | ⟨hw, hx2⟩⟩
    · exact hd w x hold
    · exact ⟨hw ▸ hda, hx2 ▸ hdb⟩
    · exact ⟨hw ▸ hdb, hx2 ▸ hda⟩
  · intro w hw
    rw [augmentPair_dom] at hw
    by_cases hg : (s.dom.contains a && s.dom.contains b) = true
    · rw [Bool.and_eq_true] at hg
      have hga : a ∈ s.dom := by simpa using hg.1
      have hgb : b ∈ s.dom := by simpa using hg.2
      rw [augmentPair_lmap_untouched a b s w (fun h2 => hw (h2 ▸ hga))
        (fun h2 => hw (h2 ▸ hgb))]
      exact ho w hw
    · have he : augmentPair a b s = s := by
        unfold augmentPair
        rw [if_neg hg]
      rw [he]
      exact ho w hw

theorem augmentPair_mono (a b : Value) (s : LState) (w x : Value)
    (h : x ∈ s.lmap w) : x ∈ (augmentPair a b s).lmap w :=
  (augmentPair_lmap_mem a b s w x).mpr (Or.inl h)

theorem innerFold_dom (a : Value) (outs : List Value) :
    ∀ s : LState,
    (outs.foldl (fun s2 b => augmentPair a b s2) s).dom = s.dom := by
  induction outs with
  | nil => intro s; rfl
  | cons b rest ih =>
    intro s
    simp only [List.foldl_cons]
    rw [ih, augmentPair_dom]

theorem innerFold_mono (a : Value) (outs : List Value) :
    ∀ (s : LState) (w x : Value), x ∈ s.lmap w →
    x ∈ (outs.foldl (fun s2 b => augmentPair a b s2) s).lmap w := by
  induction outs with
  | nil => intro s w x h; exact h
  | cons b rest ih =>
    intro s w x h
    simp only [List.foldl_cons]
    exact ih (augmentPair a b s) w x (augmentPair_mono a b s w x h)

theorem innerFold_sym (a : Value) (outs : List Value) :
    ∀ s : LState, SymOK s → (∀ b ∈ outs, a ≠ b) →
    SymOK (outs.foldl (fun s2 b => augmentPair a b s2) s) := by
  induction outs with
  | nil => intro s h _; exact h
  | cons b rest ih =>
    intro s h hne
    simp only [List.foldl_cons]
    exact ih (augmentPair a b s) (augmentPair_sym a b s (hne b (by simp)) h)
      (fun c hc => hne c (by simp [hc]))

theorem augmentNode_dom (n : Node) : ∀ s : LState,
    (augmentNode s n).dom = s.dom := by
  unfold augmentNode
  induction n.inputs with
  | nil => intro s; rfl
  | cons a rest ih =>
    intro s
    simp only [List.foldl_cons]
    rw [ih, innerFold_dom]

theorem augmentNode_mono (n : Node) : ∀ (s : LState) (w x : Value),
    x ∈ s.lmap w → x ∈ (augmentNode s n).lmap w := by
  unfold augmentNode
  induction n.inputs with
  | nil => intro s w x h; exact h
  | cons a rest ih =>
    intro s w x h
    simp only [List.foldl_cons]
    exact ih _ w x (innerFold_mono a n.outputs s w x h)

theorem augmentNode_sym (n : Node) : ∀ s : LState, SymOK s →
    (∀ a ∈ n.inputs, ∀ b ∈ n.outputs, a ≠ b) →
    SymOK (augmentNode s n) := by
  unfold augmentNode
  induction n.inputs with
  | nil =>
    intro s h _
    exact h
  | cons a rest ih =>
    intro s h hne
    simp only [List.foldl_cons]
    exact ih _ (innerFold_sym a n.outputs s h (hne a (by simp)))
      (fun a2 ha2 b hb => hne a2 (by simp [ha2]) b hb)

theorem nodesFold_dom (l : List Node) : ∀ s : LState,
    (l.foldl augmentNode s).dom = s.dom := by
  induction l with
  | nil => intro s; rfl
  | cons n rest ih =>
    intro s
    simp only [List.foldl_cons]
    rw [ih, augmentNode_dom]

theorem nodesFold_mono (l : List Node) : ∀ (s : LState) (w x : Value),
    x ∈ s.lmap w → x ∈ (l.foldl augmentNode s).lmap w := by
  induction l with
  | nil => intro s w x h; exact h
  | cons n rest ih =>
    intro s w x h
    simp only [List.foldl_cons]
    exact ih _ w x (augmentNode_mono n s w x h)

theorem nodesFold_sym (l : List Node) : ∀ s : LState, SymOK s →
    (∀ n ∈ l, ∀ a ∈ n.inputs, ∀ b ∈ n.outputs, a ≠ b) →
    SymOK (l.foldl augmentNode s) := by
  induction l with
  | nil => intro s h _; exact h
  | cons n rest ih =>
    intro s h hne
    simp only [List.foldl_cons]
    exact ih _ (augmentNode_sym n s h (hne n (by simp)))
      (fun n2 hn2 => hne n2 (by simp [hn2]))

theorem input_ne_output (g : Graph) (hwf : WF g) (n : Node)
    (hn : n ∈ g.nodes) (a : Value) (ha : a ∈ n.inputs) (b : Value)
    (hb : b ∈ n.outputs) : a ≠ b := by
  intro hab
  rcases List.mem_iff_get?.mp hn with ⟨i, hi⟩
  have := topo_lt g hwf i i n n b hi hb hi (hab ▸ ha)
  omega

theorem innerFold_adds (a : Value) (outs : List Value) :
    ∀ (s : LState) (b : Value), b ∈ outs → a ∈ s.dom → b ∈ s.dom →
    b ∈ ((outs.foldl (fun s2 b2 => augmentPair a b2 s2) s).lmap a) ∧
    a ∈ ((outs.foldl (fun s2 b2 => augmentPair a b2 s2) s).lmap b) := by
  induction outs with
  | nil =>
    intro s b hb
    simp at hb
  | cons c rest ih =>
    intro s b hb ha hbd
    simp only [List.foldl_cons]
    rcases List.mem_cons.mp hb with hbc | hb2
    · subst hbc
      have h1 : b ∈ (augmentPair a b s).lmap a :=
        (augmentPair_lmap_mem a b s a b).mpr
          (Or.inr ⟨ha, hbd, Or.inl ⟨rfl, rfl⟩⟩)
      have h2 : a ∈ (augmentPair a b s).lmap b :=
        (augmentPair_lmap_mem a b s b a).mpr
          (Or.inr ⟨ha, hbd, Or.inr ⟨rfl, rfl⟩⟩)
      exact ⟨innerFold_mono a rest _ a b h1, innerFold_mono a rest _ b a h2⟩
    · exact ih (augmentPair a c s) b hb2
        (by rw [augmentPair_dom]; exact ha)
        (by rw [augmentPair_dom]; exact hbd)

theorem inputsFold_dom (outs : List Value) (ins : List Value) :
    ∀ s : LState,
    (ins.foldl (fun s1 a2 => outs.foldl (fun s2 b2 => augmentPair a2 b2 s2)
      s1) s).dom = s.dom := by
  induction ins with
  | nil => intro s; rfl
  | cons a rest ih =>
    intro s
    simp only [List.foldl_cons]
    rw [ih, innerFold_dom]

theorem inputsFold_mono (outs : List Value) (ins : List Value) :
    ∀ (s : LState) (w x : Value), x ∈ s.lmap w →
    x ∈ (ins.foldl (fun s1 a2 => outs.foldl
      (fun s2 b2 => augmentPair a2 b2 s2) s1) s).lmap w := by
  induction ins with
  | nil => intro s w x h; exact h
  | cons a rest ih =>
    intro s w x h
    simp only [List.foldl_cons]
    exact ih _ w x (innerFold_mono a outs s w x h)

theorem augmentNode_adds (n : Node) : ∀ (s : LState) (a b : Value),
    a ∈ n.inputs → b ∈ n.outputs → a ∈ s.dom → b ∈ s.dom →
    b ∈ (augmentNode s n).lmap a ∧ a ∈ (augmentNode s n).lmap b := by
  unfold augmentNode
  induction n.inputs with
  | nil =>
    intro s a b ha
    simp at ha
  | cons a2 rest ih =>
    intro s a b ha hb had hbd
    simp only [List.foldl_cons]
    rcases List.mem_cons.mp ha with hac | ha2
    · subst hac
      obtain ⟨h1, h2⟩ := innerFold_adds a n.outputs s b hb had hbd
      exact ⟨inputsFold_mono n.outputs rest _ a b h1,
        inputsFold_mono n.outputs rest _ b a h2⟩
    · exact ih _ a b ha2 hb
        (by rw [innerFold_dom]; exact had)
        (by rw [innerFold_dom]; exact hbd)

theorem nodesFold_adds (l : List Node) : ∀ (s : LState) (n : Node),
    n ∈ l → ∀ a b, a ∈ n.inputs → b ∈ n.outputs → a ∈ s.dom → b ∈ s.dom →
    b ∈ (l.foldl augmentNode s).lmap a ∧
    a ∈ (l.foldl augmentNode s).lmap b := by
  induction l with
  | nil =>
    intro s n hn
    simp at hn
  | cons m rest ih =>
    intro s n hn a b ha hb had hbd
    simp only [List.foldl_cons]
    rcases List.mem_cons.mp hn with hnm | hn2
    · subst hnm
      obtain ⟨h1, h2⟩ := augmentNode_adds n s a b ha hb had hbd
      exact ⟨nodesFold_mono rest _ a b h1, nodesFold_mono rest _ b a h2⟩
    · exact ih _ n hn2 a b ha hb
        (by rw [augmentNode_dom]; exact had)
        (by rw [augmentNode_dom]; exact hbd)

/-- C3: on a well-formed graph, the liveness_map returned by LivenessMap is
symmetric and reflexive-free, and every value still in the live set after
the topological sweep belongs to always_alive, so the TORCH_CHECK at
impl.cpp 154-156 cannot fire. -/
theorem LivenessMap_contracts (g : Graph) (hwf : WF g) :
    (∀ a b, b ∈ (LivenessMap g).lmap a → a ∈ (LivenessMap g).lmap b) ∧
    (∀ a, a ∉ (LivenessMap g).lmap a) ∧
    (∀ v ∈ (sweep g).liveDom, v ∈ (sweep g).alwaysAlive) := by
  obtain ⟨hsym, hlive, hdom, hchar, halive⟩ := sweep_inv g hwf
  have hne : ∀ n ∈ g.nodes, ∀ a ∈ n.inputs, ∀ b ∈ n.outputs, a ≠ b := by
    intro n hn a ha b hb
    exact input_ne_output g hwf n hn a ha b hb
  have hsymfinal : SymOK (LivenessMap g) :=
    nodesFold_sym g.nodes (sweep g) hsym hne
  refine ⟨hsymfinal.1, hsymfinal.2.1, ?_⟩
  intro v hv
  obtain ⟨hl1, hl2, hl3, hl4⟩ := hlive
  by_cases hout : v ∈ g.outputs
  · exact halive.2.1 v hout
  · by_cases hconst : producerKind g v = "prim::Constant"
    · rcases (users_ne_nil_iff g v).mp (hl2 v hv) with ⟨j, hj⟩ | hvo
      · rcases (mem_userIdxs g v j).mp hj with ⟨m, hm, hvin⟩
        exact halive.2.2 j m hm (userIdxs_lt g v j hj) v hvin hconst
      · exact absurd hvo hout
    · have hch := hchar v hv hconst hout
      have hne2 := hl3 v hv
      cases hu : (sweep g).live v with
      | nil => exact absurd hu hne2
      | cons u rest =>
        have humem : u ∈ (sweep g).live v := by
          rw [hu]
          simp
        rcases (hch u).mp humem with ⟨j, rfl, hkle, hjuser⟩
        have := userIdxs_lt g v j hjuser
        omega

/-- Graph used as concrete input for the C3 witness. -/
def gLive : Graph :=
  { inputs := [0], outputs := [3],
    nodes := [Node.mk "aten::add" [0, 0] [1], Node.mk "aten::add" [1, 1] [2],
              Node.mk "aten::mul" [2, 2] [3]],
    typeOf := fun _ => Ty.tensor }

/-- Witness for C3 at gLive: no value coexists with itself. -/
theorem LivenessMap_contracts_witness :
    (1 : Value) ∉ (LivenessMap gLive).lmap 1 :=
  (LivenessMap_contracts gLive (by decide)).2.1 1

/-- Graph exhibiting the gap in claim C4: node 0 consumes the graph input
0, which never receives a liveness_map entry, so the input/output pair
(0, 1) is not recorded. -/
def gC4 : Graph :=
  { inputs := [0], outputs := [1],
    nodes := [Node.mk "aten::relu" [0] [1]],
    typeOf := fun _ => Ty.tensor }

/-- C4 counterexample: in gC4 the node has input 0 and output 1, yet after
LivenessMap the value 1 is not recorded as interfering with 0 — the
augmentation loop skips pairs whose members lack liveness_map entries
(impl.cpp 161), and graph inputs never get one. -/
theorem LivenessMap_interfere_counterexample :
    gC4.nodes.get? 0 = some (Node.mk "aten::relu" [0] [1]) ∧
    (1 : Value) ∉ (LivenessMap gC4).lmap 0 := by
  refine ⟨rfl, by decide⟩

/-- C4 amended: after the topological sweep, for every node and every pair
(I, O) of an input and an output of that node such that both I and O have
liveness_map entries, the augmentation records O in liveness_map at I and I
in liveness_map at O.  Pairs involving a value without an entry — graph
inputs in particular — are skipped. -/
theorem LivenessMap_inputs_outputs_interfere (g : Graph) (n : Node)
    (hn : n ∈ g.nodes) (a b : Value) (ha : a ∈ n.inputs)
    (hb : b ∈ n.outputs) (hda : a ∈ (sweep g).dom)
    (hdb : b ∈ (sweep g).dom) :
    b ∈ (LivenessMap g).lmap a ∧ a ∈ (LivenessMap g).lmap b :=
  nodesFold_adds g.nodes (sweep g) n hn a b ha hb hda hdb

/-- Graph used as concrete input for the C4 witness. -/
def gC4W : Graph :=
  { inputs := [], outputs := [2],
    nodes := [Node.mk "aten::relu" [] [1], Node.mk "aten::exp" [1] [2]],
    typeOf := fun _ => Ty.tensor }

/-- Witness for C4 at gC4W: the pair (1, 2) of node 1 is recorded both
ways. -/
theorem LivenessMap_inputs_outputs_interfere_witness :
    (2 : Value) ∈ (LivenessMap gC4W).lmap 1 ∧
    (1 : Value) ∈ (LivenessMap gC4W).lmap 2 :=
  LivenessMap_inputs_outputs_interfere gC4W (Node.mk "aten::exp" [1] [2])
    (by decide) 1 2 (by decide) (by decide) (by decide) (by decide)

end StaticRuntimeSpec
